import Mathlib

/-!
Verification of the `LpCockooHash` table engine (`lp_cockoo_hash.h`).

The C++ template `LpCockooHash<K, V, Opts>` is embedded shallowly.  The slot
type `V` is modelled as `Option K`: the `Opts` contract makes a slot either
empty (`Empty` true, `Equals` false for every key) or the carrier of exactly
one key that is recoverable from the slot (`Hash(i, v) = Hash(i, key(v))`,
`Equals(h, k, v) ↔ v stores k`).  `Option K` together with

  * `Empty v       ↦ v = none`
  * `Equals h k v  ↦ v = some k`
  * `Init n h k v  ↦ some k`
  * `Clear v       ↦ none`
  * `Hash(i, key)  ↦ cfg.hash i key`
  * `Hash(i, slot) ↦ slotHash` below (`cfg.emptyHash` models the value the
    user hash returns on a default-constructed, empty slot)

is the canonical model of that contract.  The slot arrays become a total
function `Nat → Nat → Option K` (table index, slot index); all reads and
writes of the engine stay inside `t < numHashes`, `j < B` in the flows under
study, mirroring `tables_[t][j]`.
-/

namespace LpCockoo

/-- The compile-time data of `LpCockooHash`: `Opts::NumHashes`,
`Opts::BucketWidth`, `buckets_per_table_`, and the two `Opts::Hash`
overloads (for a key, and for the residual content of an empty slot). -/
structure Cfg (K : Type) where
  numHashes : Nat
  bucketWidth : Nat
  B : Nat
  hash : Nat → K → Nat
  emptyHash : Nat → Nat

/-- The slot arrays `tables_`: table index, slot index, content. -/
def Tbl (K : Type) : Type := Nat → Nat → Option K

variable {K : Type} [DecidableEq K]

/-- A freshly allocated table: `Opts::Alloc` default-initializes every slot,
and a default-constructed slot is empty. -/
def emptyTbl : Tbl K := fun _ _ => none

/-- Write one slot (`tables_[t][j] = v`). -/
def setSlot (s : Tbl K) (c : Nat × Nat) (v : Option K) : Tbl K :=
  fun t j => if t = c.1 ∧ j = c.2 then v else s t j

/-- `std::swap(*v0, *v1)` on the slots at coordinates `a` and `b`. -/
def swapCells (s : Tbl K) (a b : Nat × Nat) : Tbl K :=
  setSlot (setSlot s a (s b.1 b.2)) b (s a.1 a.2)

/-- One step of the probe walk: `ti++; if (ti >= buckets_per_table_) ti = 0;`. -/
def bump (cfg : Cfg K) (ti : Nat) : Nat :=
  if cfg.B ≤ ti + 1 then 0 else ti + 1

/-- The slot index visited at step `d` of a bucket scan that starts at
`hash % buckets_per_table_`. -/
def probe (cfg : Cfg K) (h : Nat) : Nat → Nat
  | 0 => h % cfg.B
  | d + 1 => bump cfg (probe cfg h d)

/-- The `BucketWidth` coordinates probed in table `t` for hash value `h`,
in scan order. -/
def bucketCells (cfg : Cfg K) (t h : Nat) : List (Nat × Nat) :=
  (List.range cfg.bucketWidth).map fun d => (t, probe cfg h d)

/-- All coordinates visited by `find`'s / `insert`'s full scan for key `k`:
for each `hi` in `[0, NumHashes)` the bucket at `Hash(hi, k) % B`. -/
def scanCells (cfg : Cfg K) (k : K) : List (Nat × Nat) :=
  (List.range cfg.numHashes).flatMap fun hi => bucketCells cfg hi (cfg.hash hi k)

/-- `Opts::Hash(n, const V&)`: on an occupied slot the contract forces the
key's hash; on an empty slot the user hash sees the residual default value
(`cfg.emptyHash`, never relevant to the verified flows). -/
def slotHash (cfg : Cfg K) (t : Nat) : Option K → Nat
  | some k => cfg.hash t k
  | none => cfg.emptyHash t

/-- The end iterator `iterator{this, NumHashes, 0}` (only `(table, index)`
participate in iterator equality). -/
def endIt (cfg : Cfg K) : Nat × Nat := (cfg.numHashes, 0)

/-- The scan loop of `find`: return the first probed coordinate whose slot
satisfies `Equals(hash, key, *elem)`. -/
def findInCells (s : Tbl K) (k : K) : List (Nat × Nat) → Option (Nat × Nat)
  | [] => none
  | c :: rest => if s c.1 c.2 = some k then some c else findInCells s k rest

/-- `LpCockooHash::find`: scan every bucket of `key`; return the first match,
else the end iterator. -/
def find (cfg : Cfg K) (s : Tbl K) (k : K) : Nat × Nat :=
  match findInCells s k (scanCells cfg k) with
  | some c => c
  | none => endIt cfg

/-- `LpCockooHash::erase`: unconditionally `Clear` the slot the iterator
addresses; no validity check of any kind. -/
def erase (cfg : Cfg K) (s : Tbl K) (it : Nat × Nat) : Tbl K :=
  setSlot s it none

/-- Phase 1 of `insert`: walk the scan cells once; remember the first empty
slot (`empty_slot == end() && Empty(*elem)`), return `Sum.inl c` when a slot
`Equals` the key (duplicate), else `Sum.inr` of the remembered empty slot. -/
def scanPhase1 (s : Tbl K) (k : K) :
    Option (Nat × Nat) → List (Nat × Nat) → Sum (Nat × Nat) (Option (Nat × Nat))
  | e, [] => Sum.inr e
  | e, c :: rest =>
    if e = none ∧ s c.1 c.2 = none then scanPhase1 s k (some c) rest
    else if s c.1 c.2 = some k then Sum.inl c
    else scanPhase1 s k e rest

/-- A BFS queue entry (`Coord`).  The source also stores `id`, which always
equals the entry's position in the queue and is read only by debug printing,
so it is dropped here.  `kNoParent` becomes `none`. -/
structure Node where
  parent : Option Nat
  cell : Nat × Nat
  deriving DecidableEq, Repr

/-- The BFS seed queue: every scanned coordinate of `k`'s home buckets, with
no parent, in scan order. -/
def seeds (cfg : Cfg K) (k : K) : List Node :=
  (scanCells cfg k).map fun c => ⟨none, c⟩

/-- The coordinates examined when expanding a dequeued entry whose table is
`t` and whose slot content is `v`: for each alternate hash index
`hash_idx2 ≠ t` (ascending), the bucket of `Hash(hash_idx2, elem)`. -/
def childCells (cfg : Cfg K) (t : Nat) (v : Option K) : List (Nat × Nat) :=
  ((List.range cfg.numHashes).filter fun t2 => t2 ≠ t).flatMap fun t2 =>
    bucketCells cfg t2 (slotHash cfg t2 v)

/-- The inner loop of one BFS expansion: push occupied child coordinates;
stop at the first empty one, yielding the tail entry `{queue.size, qi, ...}`
and the queue as it stands at the `EvictChain` call. -/
def pushLoop (s : Tbl K) (qi : Nat) (queue : List Node) :
    List (Nat × Nat) → Sum (List Node) (Node × List Node)
  | [] => Sum.inl queue
  | c :: rest =>
    if s c.1 c.2 = none then Sum.inr (⟨some qi, c⟩, queue)
    else pushLoop s qi (queue ++ [⟨some qi, c⟩]) rest

/-- Chain reconstruction in `EvictChain`: follow parent links from the tail,
aborting (`none`) when a parent index is out of range
(`if (tail.parent >= queue.size()) abort()`).  The source's `while` loop
terminates because parents strictly decrease; `fuel` makes that explicit. -/
def parentChain (queue : List Node) : Node → Nat → Option (List Node)
  | n, fuel =>
    match n.parent with
    | none => some [n]
    | some p =>
      match fuel with
      | 0 => none
      | fuel + 1 =>
        match queue[p]? with
        | none => none
        | some n2 => (parentChain queue n2 fuel).map (n :: ·)

/-- The swap loop of `EvictChain`: `swap(slot(chain[i]), slot(chain[i+1]))`
for `i = 0 .. size-2`. -/
def doSwaps (s : Tbl K) : List (Nat × Nat) → Tbl K
  | [] => s
  | [_] => s
  | a :: b :: rest => doSwaps (swapCells s a b) (b :: rest)

/-- Modelled from the spec (§4.4): "Perform swaps
`swap(slot(c_{i-1}), slot(c_i))` for `i = L-1, L-2, …, 1`" — the descending
ordering, written against the same tail-first chain `c_0 … c_{L-1}` that
`EvictChain` uses.  The innermost recursive call performs the swap with the
largest `i` first. -/
def descSwaps (s : Tbl K) : List (Nat × Nat) → Tbl K
  | [] => s
  | [_] => s
  | a :: b :: rest => swapCells (descSwaps s (b :: rest)) a b

/-- `LpCockooHash::EvictChain`: rebuild the chain, abort if it is shorter
than 2, perform the swaps, abort unless the vacated root slot is empty, and
return the vacated coordinate with the new state.  Every `abort()` is
modelled as `none`. -/
def evictChain (cfg : Cfg K) (s : Tbl K) (queue : List Node) (tail : Node) :
    Option (Node × Tbl K) :=
  match parentChain queue tail queue.length with
  | none => none
  | some chain =>
    if chain.length < 2 then none
    else
      match chain.getLast? with
      | none => none
      | some vac =>
        let s2 := doSwaps s (chain.map (·.cell))
        if s2 vac.cell.1 vac.cell.2 = none then some (vac, s2) else none

/-- The BFS loop of `insert` (`for (int rep = 0; rep < 100; rep++)`), with
the fuel counting the remaining iterations.  Reading `(*queue)[qi]` out of
range is undefined in the source; it is modelled as the aborting branch
`none` (it is unreachable whenever `NumHashes ≥ 2` and `BucketWidth ≥ 1`). -/
def bfsLoop (cfg : Cfg K) (s : Tbl K) (k : K) :
    Nat → Nat → List Node → Option ((Nat × Nat) × Bool × Tbl K)
  | 0, _, _ => none
  | fuel + 1, qi, queue =>
    match queue[qi]? with
    | none => none
    | some c =>
      match pushLoop s qi queue (childCells cfg c.cell.1 (s c.cell.1 c.cell.2)) with
      | Sum.inl queue2 => bfsLoop cfg s k fuel (qi + 1) queue2
      | Sum.inr (tail, queueAtCall) =>
        match evictChain cfg s queueAtCall tail with
        | none => none
        | some (vac, s2) => some (vac.cell, true, setSlot s2 vac.cell (some k))

/-- The number of BFS expansions `bfsLoop` actually performs. -/
def bfsExpansions (cfg : Cfg K) (s : Tbl K) :
    Nat → Nat → List Node → Nat
  | 0, _, _ => 0
  | fuel + 1, qi, queue =>
    match queue[qi]? with
    | none => 0
    | some c =>
      match pushLoop s qi queue (childCells cfg c.cell.1 (s c.cell.1 c.cell.2)) with
      | Sum.inl queue2 => bfsExpansions cfg s fuel (qi + 1) queue2 + 1
      | Sum.inr _ => 1

/-- `MaxBfsRounds`, the literal `100` of the `rep` loop. -/
def maxBfsRounds : Nat := 100

/-- `LpCockooHash::insert`.  Result `some ((t, j), inserted?, newState)`;
`none` models the `abort()` paths (table full, and the internal
assertions of `EvictChain`). -/
def insert (cfg : Cfg K) (s : Tbl K) (k : K) :
    Option ((Nat × Nat) × Bool × Tbl K) :=
  match scanPhase1 s k none (scanCells cfg k) with
  | Sum.inl c => some (c, false, s)
  | Sum.inr (some c) => some (c, true, setSlot s c (some k))
  | Sum.inr none => bfsLoop cfg s k maxBfsRounds 0 (seeds cfg k)

/-- BFS expansions performed by one `insert` call. -/
def insertExpansions (cfg : Cfg K) (s : Tbl K) (k : K) : Nat :=
  match scanPhase1 s k none (scanCells cfg k) with
  | Sum.inl _ => 0
  | Sum.inr (some _) => 0
  | Sum.inr none => bfsExpansions cfg s maxBfsRounds 0 (seeds cfg k)

/-- Run a list of inserts left to right; `none` as soon as one aborts. -/
def insertList (cfg : Cfg K) : Tbl K → List K → Option (Tbl K)
  | s, [] => some s
  | s, k :: ks =>
    match insert cfg s k with
    | none => none
    | some (_, _, s2) => insertList cfg s2 ks

/-- The constructor's bucket count,
`buckets_per_table_ = (elems / LoadFactor - 1) / NumHashes + 1`, with
`LoadFactor = 0.9`.  The C++ expression is evaluated in `double` and then
truncated by the assignment to `size_t`; it is modelled in exact rational
arithmetic (the value is provably in `[0, ∞)`, where truncation is `⌊·⌋`). -/
def computeBuckets (numHashes elems : Nat) : Nat :=
  (((elems : ℚ) / (9 / 10) - 1) / (numHashes : ℚ) + 1).floor.toNat

/-- The residence invariant: every occupied in-range slot `(t, j)` has `j`
inside the wrap-around bucket rooted at `hash t k % B`. -/
def Resident (cfg : Cfg K) (s : Tbl K) : Prop :=
  ∀ t j k, t < cfg.numHashes → j < cfg.B → s t j = some k →
    ∃ d < cfg.bucketWidth, j = probe cfg (cfg.hash t k) d

/-- The uniqueness invariant: a key occupies at most one in-range slot. -/
def UniqueKeys (cfg : Cfg K) (s : Tbl K) : Prop :=
  ∀ t j t' j' k, t < cfg.numHashes → j < cfg.B → t' < cfg.numHashes → j' < cfg.B →
    s t j = some k → s t' j' = some k → t = t' ∧ j = j'

/-- A key is stored somewhere in range. -/
def present (cfg : Cfg K) (s : Tbl K) (k : K) : Prop :=
  ∃ t j, t < cfg.numHashes ∧ j < cfg.B ∧ s t j = some k

/-- Table states reachable from a fresh table by completed `insert` calls and
by `erase` (an aborting `insert` terminates the process, hence the
reachable-state relation only follows completed calls). -/
inductive Reachable (cfg : Cfg K) : Tbl K → Prop
  | init : Reachable cfg emptyTbl
  | insert_step {s : Tbl K} {k : K} {it : Nat × Nat} {b : Bool} {s2 : Tbl K} :
      Reachable cfg s → insert cfg s k = some (it, b, s2) → Reachable cfg s2
  | erase_step {s : Tbl K} (it : Nat × Nat) :
      Reachable cfg s → Reachable cfg (erase cfg s it)

/-- Number of BFS seed entries (`NumHashes * BucketWidth`). -/
def scanLen (cfg : Cfg K) : Nat := cfg.numHashes * cfg.bucketWidth

/-- Number of entries one completed expansion appends
(`(NumHashes - 1) * BucketWidth`). -/
def blockLen (cfg : Cfg K) : Nat := (cfg.numHashes - 1) * cfg.bucketWidth

/-- The BFS queue as it stands after `qi` completed expansions during one
`insert` of `k` into the (unchanged) state `s`: the seeds followed by one
full child block per expanded entry, every examined coordinate occupied.
`bfsLoop` preserves this shape until it finds an empty child slot. -/
inductive GoodQ (cfg : Cfg K) (s : Tbl K) (k : K) : Nat → List Node → Prop
  | base (hocc : ∀ c ∈ scanCells cfg k, s c.1 c.2 ≠ none) :
      GoodQ cfg s k 0 (seeds cfg k)
  | step {qi : Nat} {queue : List Node} {n : Node}
      (hq : GoodQ cfg s k qi queue)
      (hget : queue[qi]? = some n)
      (hocc : ∀ c ∈ childCells cfg n.cell.1 (s n.cell.1 n.cell.2),
        s c.1 c.2 ≠ none) :
      GoodQ cfg s k (qi + 1)
        (queue ++ (childCells cfg n.cell.1 (s n.cell.1 n.cell.2)).map
          fun c => ⟨some qi, c⟩)

/-- `ChainAt queue chain idxs`: `chain` is a parent-linked path through
`queue` — the entry at chain position `pos` sits at queue index
`idxs[pos]`, each entry's parent link points at the next — ending at a
root entry (no parent). -/
inductive ChainAt (queue : List Node) : List Node → List Nat → Prop
  | root (n : Node) (i : Nat) (hget : queue[i]? = some n)
      (hp : n.parent = none) : ChainAt queue [n] [i]
  | cons (n : Node) (i p : Nat) (n2 : Node) (restN : List Node)
      (restI : List Nat) (hget : queue[i]? = some n) (hp : n.parent = some p)
      (hnext : ChainAt queue (n2 :: restN) (p :: restI)) :
      ChainAt queue (n :: n2 :: restN) (i :: p :: restI)

/-- A repeated cell: some earlier queue entry has the same cell as the
entry at index `i`. -/
def DupAt (queue : List Node) (i : Nat) : Prop :=
  ∃ j, j < i ∧ ∃ nj ni, queue[j]? = some nj ∧ queue[i]? = some ni ∧
    nj.cell = ni.cell

/-- A coordinate produced by the probe walk: in some table `t < NumHashes`,
at offset `d < BucketWidth` of some hash value's bucket.  Every coordinate
the engine ever touches has this shape. -/
def ProbeCell (cfg : Cfg K) (c : Nat × Nat) : Prop :=
  ∃ t d hsh, t < cfg.numHashes ∧ d < cfg.bucketWidth ∧
    c = (t, probe cfg hsh d)

/-! ### Concrete instances used by counterexamples and witnesses -/

/-- A small config: `NumHashes = 2`, `BucketWidth = 2`, the test harness's
hash `Hash(i, k) = k + i`, capacity 10 (so `buckets_per_table_ = 6`). -/
def cfg0 : Cfg Nat :=
  ⟨2, 2, 6, fun i k => k + i, fun i => i⟩

/-- A config whose geometry never matters (only `doSwaps`/`evictChain` are
exercised on it). -/
def cfgX : Cfg Nat :=
  ⟨2, 1, 2, fun i k => k + i, fun i => i⟩

/-- State for the swap-ordering counterexample: slot `(0,0)` empty, slot
`(1,0)` stores `1`, slot `(0,1)` stores `2`. -/
def exS7 : Tbl Nat := fun t j =>
  if t = 1 ∧ j = 0 then some 1 else if t = 0 ∧ j = 1 then some 2 else none

/-- A 3-cell chain, tail first: `c_0 = (0,0)` (empty), `c_1 = (1,0)`,
`c_2 = (0,1)`. -/
def exChain7 : List (Nat × Nat) := [(0, 0), (1, 0), (0, 1)]

/-- BFS queue for the eviction counterexample.  Entry 2 repeats the cell of
the root entry 0, which parent links permit: the chain rebuilt from
`exTail6` is `(0,0) ← (1,0) ← (0,1) ← (1,0)` with the cell `(1,0)`
appearing twice. -/
def exQueue6 : List Node :=
  [⟨none, (1, 0)⟩, ⟨some 0, (0, 1)⟩, ⟨some 1, (1, 0)⟩]

/-- The tail entry handed to `EvictChain` in the counterexample: its cell
`(0,0)` is empty and its parent is queue entry 2. -/
def exTail6 : Node := ⟨some 2, (0, 0)⟩

/-- State for the eviction counterexample: same occupancy as `exS7`. -/
def exS6 : Tbl Nat := fun t j =>
  if t = 1 ∧ j = 0 then some 1 else if t = 0 ∧ j = 1 then some 2 else none

/-- The result of the eviction counterexample call. -/
def exResult6 : Option (Node × Tbl Nat) := evictChain cfgX exS6 exQueue6 exTail6

/-- State for the eviction witness: slot `(1,0)` stores `5`, all else empty. -/
def exSW : Tbl Nat := fun t j => if t = 1 ∧ j = 0 then some 5 else none

/-- Queue for the eviction witness: a single seed at `(1,0)`. -/
def exQW : List Node := [⟨none, (1, 0)⟩]

/-- Tail for the eviction witness: empty cell `(0,0)`, parent 0. -/
def exTailW : Node := ⟨some 0, (0, 0)⟩

/-- Witness state for insert idempotence: key `3` resides at `(0, 3)`, its
bucket base in table 0 under `cfg0` (`Hash(0,3) % 6 = 3`). -/
def wS8 : Tbl Nat := fun t j => if t = 0 ∧ j = 3 then some 3 else none

/-- Witness state for find-after-insert: the table after inserting `3` and
`5` into a fresh `cfg0` table. -/
def wS1 : Tbl Nat := (insertList cfg0 emptyTbl [3, 5]).getD emptyTbl

/-- Witness state for the invariants: the table after one completed insert
of `3` into a fresh `cfg0` table. -/
def wS2 : Tbl Nat := setSlot emptyTbl (0, 3) (some 3)

/-! ### Basic lemmas about probing and slot updates -/

theorem probe_lt (cfg : Cfg K) (h : Nat) (hB : 0 < cfg.B) (d : Nat) :
    probe cfg h d < cfg.B := by
  induction d with
  | zero => exact Nat.mod_lt _ hB
  | succ d ih =>
    simp only [probe, bump]
    split
    · exact hB
    · omega

theorem bump_eq_mod (cfg : Cfg K) (hB : 0 < cfg.B) (r : Nat) (hr : r < cfg.B) :
    bump cfg r = (r + 1) % cfg.B := by
  unfold bump
  split
  · have h1 : r + 1 = cfg.B := by omega
    rw [h1, Nat.mod_self]
  · rw [Nat.mod_eq_of_lt (by omega)]

theorem probe_eq_mod (cfg : Cfg K) (h : Nat) (hB : 0 < cfg.B) (d : Nat) :
    probe cfg h d = (h % cfg.B + d) % cfg.B := by
  induction d with
  | zero => rw [Nat.add_zero, Nat.mod_mod_of_dvd _ dvd_rfl]; rfl
  | succ d ih =>
    rw [probe, ih, bump_eq_mod cfg hB _ (Nat.mod_lt _ hB), Nat.mod_add_mod,
      Nat.add_assoc]

theorem setSlot_same (s : Tbl K) (c : Nat × Nat) (v : Option K) :
    setSlot s c v c.1 c.2 = v := by
  simp [setSlot]

theorem setSlot_other (s : Tbl K) (c : Nat × Nat) (v : Option K) (t j : Nat)
    (h : ¬(t = c.1 ∧ j = c.2)) : setSlot s c v t j = s t j := by
  simp only [setSlot, if_neg h]

theorem setSlot_ne (s : Tbl K) (c : Nat × Nat) (v : Option K) (c' : Nat × Nat)
    (h : c' ≠ c) : setSlot s c v c'.1 c'.2 = s c'.1 c'.2 := by
  apply setSlot_other
  intro ⟨h1, h2⟩
  exact h (Prod.ext h1 h2)

theorem swapCells_left (s : Tbl K) (a b : Nat × Nat) (hab : a ≠ b) :
    swapCells s a b a.1 a.2 = s b.1 b.2 := by
  unfold swapCells
  rw [setSlot_ne _ _ _ _ hab, setSlot_same]

theorem swapCells_right (s : Tbl K) (a b : Nat × Nat) :
    swapCells s a b b.1 b.2 = s a.1 a.2 := by
  unfold swapCells
  rw [setSlot_same]

theorem swapCells_other (s : Tbl K) (a b c : Nat × Nat) (ha : c ≠ a) (hb : c ≠ b) :
    swapCells s a b c.1 c.2 = s c.1 c.2 := by
  unfold swapCells
  rw [setSlot_ne _ _ _ _ hb, setSlot_ne _ _ _ _ ha]

/-! ### The swap loop on a duplicate-free chain -/

theorem doSwaps_not_mem (s : Tbl K) (l : List (Nat × Nat)) (c : Nat × Nat)
    (h : c ∉ l) : doSwaps s l c.1 c.2 = s c.1 c.2 := by
  induction l generalizing s with
  | nil => rfl
  | cons a rest ih =>
    match rest with
    | [] => rfl
    | b :: rest2 =>
      rw [doSwaps]
      rw [ih (swapCells s a b) (by simp only [List.mem_cons] at h; push_neg at h; simp [h])]
      exact swapCells_other s a b c (by simp at h; tauto) (by simp at h; tauto)

theorem doSwaps_getLast (s : Tbl K) (l : List (Nat × Nat)) (hnd : l.Nodup)
    (hne : l ≠ []) :
    doSwaps s l (l.getLast hne).1 (l.getLast hne).2
      = s (l.head hne).1 (l.head hne).2 := by
  induction l generalizing s with
  | nil => exact absurd rfl hne
  | cons a rest ih =>
    match rest with
    | [] => rfl
    | b :: rest2 =>
      rw [doSwaps]
      have hne2 : b :: rest2 ≠ [] := by simp
      have hlast : (a :: b :: rest2).getLast hne = (b :: rest2).getLast hne2 :=
        List.getLast_cons hne2
      rw [hlast, ih (swapCells s a b) (List.Nodup.of_cons hnd) hne2]
      have hhead : (b :: rest2).head hne2 = b := rfl
      rw [hhead]
      simp only [List.head_cons]
      exact swapCells_right s a b

theorem doSwaps_get (s : Tbl K) (l : List (Nat × Nat)) (hnd : l.Nodup)
    (i : Nat) (hi : i + 1 < l.length) :
    doSwaps s l (l.get ⟨i, by omega⟩).1 (l.get ⟨i, by omega⟩).2
      = s (l.get ⟨i + 1, hi⟩).1 (l.get ⟨i + 1, hi⟩).2 := by
  induction l generalizing s i with
  | nil => simp at hi
  | cons a rest ih =>
    match rest with
    | [] => simp at hi
    | b :: rest2 =>
      rw [doSwaps]
      have hab : a ∉ b :: rest2 := (List.nodup_cons.mp hnd).1
      match i with
      | 0 =>
        have h0 : ((a :: b :: rest2).get ⟨0, by omega⟩) = a := rfl
        have h1 : ((a :: b :: rest2).get ⟨1, hi⟩) = b := rfl
        rw [h0, h1, doSwaps_not_mem _ _ _ hab]
        exact swapCells_left s a b (by intro h; exact hab (h ▸ List.mem_cons_self b rest2))
      | i' + 1 =>
        have hi' : i' + 1 < (b :: rest2).length := by
          simp only [List.length_cons] at hi ⊢; omega
        have hg1 : ((a :: b :: rest2).get ⟨i' + 1, by omega⟩)
            = ((b :: rest2).get ⟨i', by omega⟩) := rfl
        have hg2 : ((a :: b :: rest2).get ⟨i' + 2, hi⟩)
            = ((b :: rest2).get ⟨i' + 1, hi'⟩) := rfl
        rw [hg1, hg2, ih (swapCells s a b) (List.Nodup.of_cons hnd) i' hi']
        have hmem : (b :: rest2).get ⟨i' + 1, hi'⟩ = rest2.get ⟨i', by
            simp only [List.length_cons] at hi'; omega⟩ := rfl
        have hbr : (b :: rest2).Nodup := List.Nodup.of_cons hnd
        apply swapCells_other
        · intro h
          exact hab (h ▸ List.get_mem _ _ _)
        · rw [hmem]
          intro h
          exact (List.nodup_cons.mp hbr).1 (h ▸ List.get_mem _ _ _)

/-! ### Scan-cell and child-cell characterizations -/

theorem mem_scanCells (cfg : Cfg K) (k : K) (c : Nat × Nat) :
    c ∈ scanCells cfg k ↔
      ∃ t < cfg.numHashes, ∃ d < cfg.bucketWidth,
        c = (t, probe cfg (cfg.hash t k) d) := by
  simp only [scanCells, bucketCells, List.mem_flatMap, List.mem_map,
    List.mem_range]
  constructor
  · rintro ⟨t, ht, d, hd, rfl⟩
    exact ⟨t, ht, d, hd, rfl⟩
  · rintro ⟨t, ht, d, hd, rfl⟩
    exact ⟨t, ht, d, hd, rfl⟩

theorem mem_childCells (cfg : Cfg K) (t : Nat) (v : Option K) (c : Nat × Nat) :
    c ∈ childCells cfg t v ↔
      ∃ t2 < cfg.numHashes, t2 ≠ t ∧ ∃ d < cfg.bucketWidth,
        c = (t2, probe cfg (slotHash cfg t2 v) d) := by
  simp only [childCells, bucketCells, List.mem_flatMap, List.mem_map,
    List.mem_filter, List.mem_range, decide_eq_true_eq]
  constructor
  · rintro ⟨t2, ⟨ht2, hne⟩, d, hd, rfl⟩
    exact ⟨t2, ht2, hne, d, hd, rfl⟩
  · rintro ⟨t2, ht2, hne, d, hd, rfl⟩
    exact ⟨t2, ⟨ht2, hne⟩, d, hd, rfl⟩

theorem scanCells_length (cfg : Cfg K) (k : K) :
    (scanCells cfg k).length = cfg.numHashes * cfg.bucketWidth := by
  rw [scanCells, List.length_flatMap]
  have h1 : List.map
      (List.length ∘ fun hi =>
        bucketCells cfg hi (cfg.hash hi k)) (List.range cfg.numHashes)
      = List.replicate cfg.numHashes cfg.bucketWidth := by
    have h2 := List.eq_replicate_of_mem (l :=
      List.map (List.length ∘ fun hi => bucketCells cfg hi (cfg.hash hi k))
        (List.range cfg.numHashes)) (a := cfg.bucketWidth) ?_
    · rwa [List.length_map, List.length_range] at h2
    · intro b hb
      simp only [List.mem_map, Function.comp] at hb
      obtain ⟨hi, _, rfl⟩ := hb
      simp [bucketCells]
  rw [h1, List.sum_replicate, smul_eq_mul]

theorem length_filter_range_ne (H t : Nat) (ht : t < H) :
    ((List.range H).filter fun t2 => t2 ≠ t).length = H - 1 := by
  induction H with
  | zero => omega
  | succ H ih =>
    rw [List.range_succ, List.filter_append]
    by_cases hc : t = H
    · subst hc
      have h1 : (List.range t).filter (fun t2 => decide (t2 ≠ t)) = List.range t := by
        apply List.filter_eq_self.mpr
        intro a ha
        simp only [List.mem_range] at ha
        simp only [decide_eq_true_eq]
        omega
      have h2 : [t].filter (fun t2 => decide (t2 ≠ t)) = [] := by
        simp only [List.filter_cons, List.filter_nil]
        rw [if_neg (by simp)]
      rw [h1, h2, List.length_append]
      simp
    · have ht' : t < H := by omega
      have h2 : [H].filter (fun t2 => decide (t2 ≠ t)) = [H] := by
        simp only [List.filter_cons, List.filter_nil]
        rw [if_pos (by simp only [decide_eq_true_eq]; omega)]
      rw [h2, List.length_append, ih ht']
      simp only [List.length_singleton]
      omega

theorem childCells_length (cfg : Cfg K) (t : Nat) (v : Option K)
    (ht : t < cfg.numHashes) :
    (childCells cfg t v).length = (cfg.numHashes - 1) * cfg.bucketWidth := by
  rw [childCells, List.length_flatMap]
  have h1 : List.map
      (List.length ∘ fun t2 => bucketCells cfg t2 (slotHash cfg t2 v))
      ((List.range cfg.numHashes).filter fun t2 => t2 ≠ t)
      = List.replicate (cfg.numHashes - 1) cfg.bucketWidth := by
    have h2 := List.eq_replicate_of_mem (l :=
      List.map (List.length ∘ fun t2 => bucketCells cfg t2 (slotHash cfg t2 v))
        ((List.range cfg.numHashes).filter fun t2 => t2 ≠ t))
      (a := cfg.bucketWidth) ?_
    · rwa [List.length_map, length_filter_range_ne _ _ ht] at h2
    · intro b hb
      simp only [List.mem_map, Function.comp] at hb
      obtain ⟨t2, _, rfl⟩ := hb
      simp [bucketCells]
  rw [h1, List.sum_replicate, smul_eq_mul]

/-! ### The phase-1 scan of `insert` -/

theorem scanPhase1_inl (s : Tbl K) (k : K) (cells : List (Nat × Nat))
    (e : Option (Nat × Nat)) (c : Nat × Nat)
    (h : scanPhase1 s k e cells = Sum.inl c) :
    c ∈ cells ∧ s c.1 c.2 = some k := by
  induction cells generalizing e with
  | nil => simp [scanPhase1] at h
  | cons c0 rest ih =>
    rw [scanPhase1] at h
    split at h
    · obtain ⟨hm, hs⟩ := ih _ h
      exact ⟨List.mem_cons_of_mem _ hm, hs⟩
    · split at h
      · cases h
        exact ⟨List.mem_cons_self _ _, by assumption⟩
      · obtain ⟨hm, hs⟩ := ih _ h
        exact ⟨List.mem_cons_of_mem _ hm, hs⟩

theorem scanPhase1_no_dup (s : Tbl K) (k : K) (cells : List (Nat × Nat))
    (e : Option (Nat × Nat)) (r : Option (Nat × Nat))
    (h : scanPhase1 s k e cells = Sum.inr r) :
    ∀ c ∈ cells, s c.1 c.2 ≠ some k := by
  induction cells generalizing e with
  | nil => simp
  | cons c0 rest ih =>
    rw [scanPhase1] at h
    intro c hc
    rcases List.mem_cons.mp hc with rfl | hm
    · split at h
      · rename_i hcond
        rw [hcond.2]
        simp
      · split at h
        · cases h
        · assumption
    · split at h
      · exact ih _ h c hm
      · split at h
        · cases h
        · exact ih _ h c hm

theorem scanPhase1_some_ne_none (s : Tbl K) (k : K) (cells : List (Nat × Nat))
    (x : Nat × Nat) :
    scanPhase1 s k (some x) cells ≠ Sum.inr none := by
  induction cells with
  | nil => simp [scanPhase1]
  | cons c0 rest ih =>
    rw [scanPhase1]
    split
    · rename_i hcond
      exact absurd hcond.1 (by simp)
    · split
      · simp
      · exact ih

theorem scanPhase1_inr_none (s : Tbl K) (k : K) (cells : List (Nat × Nat))
    (h : scanPhase1 s k none cells = Sum.inr none) :
    ∀ c ∈ cells, s c.1 c.2 ≠ none := by
  induction cells with
  | nil => simp
  | cons c0 rest ih =>
    rw [scanPhase1] at h
    intro c hc
    split at h
    · exact absurd h (scanPhase1_some_ne_none s k rest c0)
    · rcases List.mem_cons.mp hc with rfl | hm
      · rename_i hcond
        intro hnone
        exact hcond ⟨rfl, hnone⟩
      · split at h
        · cases h
        · exact ih h c hm

theorem scanPhase1_inr_some (s : Tbl K) (k : K) (cells : List (Nat × Nat))
    (e c : Nat × Nat)
    (h : scanPhase1 s k (some e) cells = Sum.inr (some c)) : c = e := by
  induction cells with
  | nil => rw [scanPhase1] at h; cases h; rfl
  | cons c0 rest ih =>
    rw [scanPhase1] at h
    split at h
    · rename_i hcond
      exact absurd hcond.1 (by simp)
    · split at h
      · cases h
      · exact ih h

theorem scanPhase1_empty_found (s : Tbl K) (k : K) (cells : List (Nat × Nat))
    (c : Nat × Nat)
    (h : scanPhase1 s k none cells = Sum.inr (some c)) :
    c ∈ cells ∧ s c.1 c.2 = none := by
  induction cells with
  | nil => simp [scanPhase1] at h
  | cons c0 rest ih =>
    rw [scanPhase1] at h
    split at h
    · rename_i hcond
      have := scanPhase1_inr_some s k rest c0 c h
      subst this
      exact ⟨List.mem_cons_self _ _, hcond.2⟩
    · split at h
      · cases h
      · obtain ⟨hm, hs⟩ := ih h
        exact ⟨List.mem_cons_of_mem _ hm, hs⟩

theorem scanPhase1_finds_dup (s : Tbl K) (k : K) (cells : List (Nat × Nat))
    (hex : ∃ c ∈ cells, s c.1 c.2 = some k) (e : Option (Nat × Nat)) :
    ∃ c, scanPhase1 s k e cells = Sum.inl c ∧ s c.1 c.2 = some k := by
  induction cells generalizing e with
  | nil => simp at hex
  | cons c0 rest ih =>
    rw [scanPhase1]
    split
    · rename_i hcond
      apply ih
      obtain ⟨c, hc, hs⟩ := hex
      rcases List.mem_cons.mp hc with rfl | hm
      · rw [hcond.2] at hs; cases hs
      · exact ⟨c, hm, hs⟩
    · by_cases hs0 : s c0.1 c0.2 = some k
      · rw [if_pos hs0]
        exact ⟨c0, rfl, hs0⟩
      · rw [if_neg hs0]
        apply ih
        obtain ⟨c, hc, hs⟩ := hex
        rcases List.mem_cons.mp hc with rfl | hm
        · exact absurd hs hs0
        · exact ⟨c, hm, hs⟩

/-! ### The scan loop of `find` -/

theorem findInCells_some (s : Tbl K) (k : K) (cells : List (Nat × Nat))
    (c : Nat × Nat) (h : findInCells s k cells = some c) :
    c ∈ cells ∧ s c.1 c.2 = some k := by
  induction cells with
  | nil => simp [findInCells] at h
  | cons c0 rest ih =>
    rw [findInCells] at h
    split at h
    · cases h
      exact ⟨List.mem_cons_self _ _, by assumption⟩
    · obtain ⟨hm, hs⟩ := ih h
      exact ⟨List.mem_cons_of_mem _ hm, hs⟩

theorem findInCells_of_mem (s : Tbl K) (k : K) (cells : List (Nat × Nat))
    (hex : ∃ c ∈ cells, s c.1 c.2 = some k) :
    ∃ c, findInCells s k cells = some c ∧ s c.1 c.2 = some k := by
  induction cells with
  | nil => simp at hex
  | cons c0 rest ih =>
    rw [findInCells]
    by_cases hs0 : s c0.1 c0.2 = some k
    · rw [if_pos hs0]
      exact ⟨c0, rfl, hs0⟩
    · rw [if_neg hs0]
      apply ih
      obtain ⟨c, hc, hs⟩ := hex
      rcases List.mem_cons.mp hc with rfl | hm
      · exact absurd hs hs0
      · exact ⟨c, hm, hs⟩

/-- `find` on a state satisfying the residence invariant locates every
present key: the result is not the end iterator and its slot stores `k`. -/
theorem find_spec (cfg : Cfg K) (s : Tbl K) (k : K)
    (hres : Resident cfg s) (hpres : present cfg s k) :
    find cfg s k ≠ endIt cfg ∧
      s (find cfg s k).1 (find cfg s k).2 = some k := by
  obtain ⟨t, j, ht, hj, hs⟩ := hpres
  obtain ⟨d, hd, rfl⟩ := hres t j k ht hj hs
  have hmem : (t, probe cfg (cfg.hash t k) d) ∈ scanCells cfg k :=
    (mem_scanCells cfg k _).mpr ⟨t, ht, d, hd, rfl⟩
  obtain ⟨c, hfind, hck⟩ := findInCells_of_mem s k (scanCells cfg k) ⟨_, hmem, hs⟩
  have hceq : find cfg s k = c := by
    rw [find, hfind]
  refine ⟨?_, by rw [hceq]; exact hck⟩
  rw [hceq]
  obtain ⟨hcm, _⟩ := findInCells_some s k _ c hfind
  obtain ⟨t2, ht2, d2, _, rfl⟩ := (mem_scanCells cfg k c).mp hcm
  intro hcontra
  rw [endIt] at hcontra
  have : t2 = cfg.numHashes := congrArg Prod.fst hcontra
  omega

/-! ### The constructor's bucket count -/

theorem ratFloor_eq_intFloor (q : ℚ) : q.floor = ⌊q⌋ := by
  rw [Rat.floor_def]
  exact Rat.floor_def' q

theorem computeBuckets_cast (H cap : Nat) (hH : 1 ≤ H) :
    ((cap : ℚ) / (9 / 10) - 1) / (H : ℚ) < (computeBuckets H cap : ℚ) := by
  have hH1 : (1 : ℚ) ≤ (H : ℚ) := Nat.one_le_cast.mpr hH
  have hHp : (0 : ℚ) < (H : ℚ) := by linarith
  have hy0 : 0 ≤ ((cap : ℚ) / (9 / 10) - 1) / (H : ℚ) + 1 := by
    rcases Nat.eq_zero_or_pos cap with rfl | hcap
    · simp only [Nat.cast_zero, zero_div, zero_sub]
      have h1 : (1 : ℚ) / (H : ℚ) ≤ 1 := by
        rw [div_le_one hHp]; exact hH1
      have h2 : (-1 : ℚ) / (H : ℚ) = -(1 / (H : ℚ)) := by ring
      rw [h2]; linarith
    · have hx : (1 : ℚ) ≤ (cap : ℚ) / (9 / 10) := by
        rw [le_div_iff₀ (by norm_num)]
        have : (1 : ℚ) ≤ (cap : ℚ) := Nat.one_le_cast.mpr hcap
        linarith
      have : (0 : ℚ) ≤ ((cap : ℚ) / (9 / 10) - 1) / (H : ℚ) :=
        div_nonneg (by linarith) (by linarith)
      linarith
  have hfl : (0 : ℤ) ≤ ⌊((cap : ℚ) / (9 / 10) - 1) / (H : ℚ) + 1⌋ := by
    rw [Int.le_floor]
    exact_mod_cast hy0
  have h1 : (computeBuckets H cap : ℤ)
      = ⌊((cap : ℚ) / (9 / 10) - 1) / (H : ℚ) + 1⌋ := by
    rw [computeBuckets, ratFloor_eq_intFloor, Int.toNat_of_nonneg hfl]
  have h2 : ((cap : ℚ) / (9 / 10) - 1) / (H : ℚ) + 1 - 1
      < (⌊((cap : ℚ) / (9 / 10) - 1) / (H : ℚ) + 1⌋ : ℚ) :=
    Int.sub_one_lt_floor _
  have h3 : ((⌊((cap : ℚ) / (9 / 10) - 1) / (H : ℚ) + 1⌋ : ℤ) : ℚ)
      = (computeBuckets H cap : ℚ) := by
    rw [← h1]; push_cast; ring
  calc ((cap : ℚ) / (9 / 10) - 1) / (H : ℚ)
      = ((cap : ℚ) / (9 / 10) - 1) / (H : ℚ) + 1 - 1 := by ring
    _ < (⌊((cap : ℚ) / (9 / 10) - 1) / (H : ℚ) + 1⌋ : ℚ) := h2
    _ = (computeBuckets H cap : ℚ) := h3

theorem computeBuckets_pos (H cap : Nat) (hH : 1 ≤ H) (hcap : 1 ≤ cap) :
    1 ≤ computeBuckets H cap := by
  by_contra hcon
  have hB0 : computeBuckets H cap = 0 := by omega
  have hlt := computeBuckets_cast H cap hH
  rw [hB0] at hlt
  simp only [Nat.cast_zero] at hlt
  have hx : (1 : ℚ) ≤ (cap : ℚ) / (9 / 10) := by
    rw [le_div_iff₀ (by norm_num)]
    have : (1 : ℚ) ≤ (cap : ℚ) := Nat.one_le_cast.mpr hcap
    linarith
  have hHp : (0 : ℚ) < (H : ℚ) := by
    have : (1 : ℚ) ≤ (H : ℚ) := Nat.one_le_cast.mpr hH
    linarith
  rw [div_lt_iff₀ hHp] at hlt
  nlinarith

/-! ### Swap-ordering equivalences -/

theorem swapCells_comm (s : Tbl K) (a b : Nat × Nat) :
    swapCells s a b = swapCells s b a := by
  by_cases hab : a = b
  · rw [hab]
  · have key : ∀ c : Nat × Nat,
        swapCells s a b c.1 c.2 = swapCells s b a c.1 c.2 := by
      intro c
      by_cases hca : c = a
      · rw [hca, swapCells_left s a b hab, swapCells_right s b a]
      · by_cases hcb : c = b
        · rw [hcb, swapCells_right s a b, swapCells_left s b a (Ne.symm hab)]
        · rw [swapCells_other s a b c hca hcb, swapCells_other s b a c hcb hca]
    funext t j
    exact key (t, j)

theorem doSwaps_append_single (s : Tbl K) (xs : List (Nat × Nat))
    (hne : xs ≠ []) (a : Nat × Nat) :
    doSwaps s (xs ++ [a]) = swapCells (doSwaps s xs) (xs.getLast hne) a := by
  induction xs generalizing s with
  | nil => exact absurd rfl hne
  | cons x rest ih =>
    match rest with
    | [] => rfl
    | y :: rest2 =>
      show doSwaps (swapCells s x y) (y :: rest2 ++ [a]) = _
      rw [ih (swapCells s x y) (by simp)]
      rfl

theorem descSwaps_eq_doSwaps_reverse (s : Tbl K) (l : List (Nat × Nat)) :
    descSwaps s l = doSwaps s l.reverse := by
  induction l generalizing s with
  | nil => rfl
  | cons a rest ih =>
    match rest with
    | [] => rfl
    | b :: rest2 =>
      show swapCells (descSwaps s (b :: rest2)) a b = _
      rw [ih]
      have hne : (b :: rest2).reverse ≠ [] := by simp
      have hrev : (a :: b :: rest2).reverse = (b :: rest2).reverse ++ [a] := by
        simp
      rw [hrev, doSwaps_append_single s _ hne a]
      have hlast : ((b :: rest2).reverse).getLast hne = b := by
        rw [List.getLast_reverse]
        rfl
      rw [hlast, swapCells_comm]

/-! ### BFS expansion bound -/

theorem bfsExpansions_le (cfg : Cfg K) (s : Tbl K) (fuel qi : Nat)
    (queue : List Node) : bfsExpansions cfg s fuel qi queue ≤ fuel := by
  induction fuel generalizing qi queue with
  | zero => exact Nat.le_refl 0
  | succ fuel ih =>
    rw [bfsExpansions]
    rcases hq : queue[qi]? with _ | c
    · exact Nat.zero_le _
    · show (match pushLoop s qi queue
          (childCells cfg c.cell.1 (s c.cell.1 c.cell.2)) with
        | Sum.inl queue2 => bfsExpansions cfg s fuel (qi + 1) queue2 + 1
        | Sum.inr _ => 1) ≤ fuel + 1
      rcases hp : pushLoop s qi queue
          (childCells cfg c.cell.1 (s c.cell.1 c.cell.2)) with q2 | pr
      · exact Nat.add_le_add_right (ih (qi + 1) q2) 1
      · exact Nat.succ_le_succ (Nat.zero_le _)

theorem insertExpansions_le (cfg : Cfg K) (s : Tbl K) (k : K) :
    insertExpansions cfg s k ≤ maxBfsRounds := by
  rw [insertExpansions]
  rcases h : scanPhase1 s k none (scanCells cfg k) with c | e
  · exact Nat.zero_le _
  · rcases e with _ | c
    · exact bfsExpansions_le cfg s maxBfsRounds 0 (seeds cfg k)
    · exact Nat.zero_le _

/-! ### Chain reconstruction -/

theorem parentChain_head (queue : List Node) (n : Node) (fuel : Nat)
    (chain : List Node) (h : parentChain queue n fuel = some chain) :
    ∃ rest, chain = n :: rest := by
  rw [parentChain] at h
  rcases hp : n.parent with _ | p
  · rw [hp] at h
    cases h
    exact ⟨[], rfl⟩
  · rw [hp] at h
    match fuel with
    | 0 => cases h
    | fuel + 1 =>
      replace h : (match queue[p]? with
          | none => none
          | some n2 => Option.map (n :: ·) (parentChain queue n2 fuel))
          = some chain := h
      rcases hq : queue[p]? with _ | n2
      · rw [hq] at h; cases h
      · rw [hq] at h
        replace h : Option.map (n :: ·) (parentChain queue n2 fuel)
            = some chain := h
        rcases hrec : parentChain queue n2 fuel with _ | ch2
        · rw [hrec] at h; cases h
        · rw [hrec] at h
          cases h
          exact ⟨ch2, rfl⟩

/-- The full effect of `EvictChain` on a chain whose cells are pairwise
distinct: the call succeeds, the root is returned as the vacated
coordinate and its slot is empty afterwards, every other chain slot holds
the value that previously lived one step toward the root (so it stays
occupied), and slots outside the chain are untouched. -/
theorem evictChain_effect (cfg : Cfg K) (s : Tbl K) (queue : List Node)
    (tail : Node) (chain : List Node)
    (hchain : parentChain queue tail queue.length = some chain)
    (hlen : 2 ≤ chain.length)
    (hnd : (chain.map (·.cell)).Nodup)
    (hhead : s tail.cell.1 tail.cell.2 = none) :
    ∃ vac s2, evictChain cfg s queue tail = some (vac, s2) ∧
      chain.getLast? = some vac ∧
      s2 vac.cell.1 vac.cell.2 = none ∧
      (∀ (i : Nat) (h2 : i + 1 < chain.length),
        s2 (chain.get ⟨i, by omega⟩).cell.1 (chain.get ⟨i, by omega⟩).cell.2
          = s (chain.get ⟨i + 1, h2⟩).cell.1 (chain.get ⟨i + 1, h2⟩).cell.2) ∧
      (∀ c : Nat × Nat, c ∉ chain.map (·.cell) → s2 c.1 c.2 = s c.1 c.2) := by
  obtain ⟨rest, hch⟩ := parentChain_head queue tail queue.length chain hchain
  have hne : chain ≠ [] := by rw [hch]; simp
  have hneC : chain.map (·.cell) ≠ [] := by rw [hch]; simp
  have hheadC : (chain.map (·.cell)).head hneC = tail.cell := by
    have h1 : (chain.map (·.cell)).head? = some tail.cell := by rw [hch]; rfl
    have h2 : (chain.map (·.cell)).head? = some ((chain.map (·.cell)).head hneC) :=
      List.head?_eq_head hneC
    rw [h1] at h2
    exact (Option.some_injective _ h2).symm
  have hlastC : (chain.map (·.cell)).getLast hneC = (chain.getLast hne).cell := by
    rw [List.getLast_map]
  have hcheck : doSwaps s (chain.map (·.cell))
      (chain.getLast hne).cell.1 (chain.getLast hne).cell.2 = none := by
    rw [← hlastC, doSwaps_getLast s _ hnd hneC, hheadC, hhead]
  refine ⟨chain.getLast hne, doSwaps s (chain.map (·.cell)), ?_,
    List.getLast?_eq_getLast chain hne, hcheck, ?_, ?_⟩
  · show (match parentChain queue tail queue.length with
      | none => none
      | some chain2 =>
        if chain2.length < 2 then none
        else
          match chain2.getLast? with
          | none => none
          | some vac =>
            let s2 := doSwaps s (chain2.map (·.cell))
            if s2 vac.cell.1 vac.cell.2 = none then some (vac, s2) else none)
      = some (chain.getLast hne, doSwaps s (chain.map (·.cell)))
    rw [hchain]
    show (if chain.length < 2 then none
      else match chain.getLast? with
        | none => none
        | some vac =>
          let s2 := doSwaps s (chain.map (·.cell))
          if s2 vac.cell.1 vac.cell.2 = none then some (vac, s2) else none)
      = some (chain.getLast hne, doSwaps s (chain.map (·.cell)))
    rw [if_neg (by omega)]
    simp only [List.getLast?_eq_getLast chain hne]
    show (if doSwaps s (chain.map (·.cell))
        (chain.getLast hne).cell.1 (chain.getLast hne).cell.2 = none
      then some (chain.getLast hne, doSwaps s (chain.map (·.cell))) else none)
      = _
    rw [if_pos hcheck]
  · intro i h2
    have hgi : (chain.map (·.cell)).get ⟨i, by rw [List.length_map]; omega⟩
        = (chain.get ⟨i, by omega⟩).cell := List.get_map _
    have hgi2 : (chain.map (·.cell)).get ⟨i + 1, by rw [List.length_map]; omega⟩
        = (chain.get ⟨i + 1, h2⟩).cell := List.get_map _
    have hds := doSwaps_get s (chain.map (·.cell)) hnd i
      (by rw [List.length_map]; omega)
    rw [hgi, hgi2] at hds
    exact hds
  · intro c hc
    exact doSwaps_not_mem s _ c hc

/-! ### Shape of the BFS queue -/

theorem getElem?_lt {α : Type} (l : List α) {n : Nat} {a : α}
    (h : l[n]? = some a) : n < l.length := by
  by_contra hcon
  rw [List.getElem?_eq_none (by omega)] at h
  cases h

theorem goodQ_table_lt {cfg : Cfg K} {s : Tbl K} {k : K} {qi : Nat}
    {queue : List Node} (h : GoodQ cfg s k qi queue) :
    ∀ n ∈ queue, n.cell.1 < cfg.numHashes := by
  induction h with
  | base hocc =>
    intro n hn
    obtain ⟨c, hc, rfl⟩ := List.mem_map.mp hn
    obtain ⟨t, ht, d, hd, rfl⟩ := (mem_scanCells cfg k c).mp hc
    exact ht
  | step hq hget hocc ih =>
    intro n hn
    rcases List.mem_append.mp hn with h1 | h2
    · exact ih n h1
    · obtain ⟨c, hc, rfl⟩ := List.mem_map.mp h2
      obtain ⟨t2, ht2, hne2, d, hd, rfl⟩ := (mem_childCells cfg _ _ c).mp hc
      exact ht2

theorem goodQ_occupied {cfg : Cfg K} {s : Tbl K} {k : K} {qi : Nat}
    {queue : List Node} (h : GoodQ cfg s k qi queue) :
    ∀ n ∈ queue, s n.cell.1 n.cell.2 ≠ none := by
  induction h with
  | base hocc =>
    intro n hn
    obtain ⟨c, hc, rfl⟩ := List.mem_map.mp hn
    exact hocc c hc
  | step hq hget hocc ih =>
    intro n hn
    rcases List.mem_append.mp hn with h1 | h2
    · exact ih n h1
    · obtain ⟨c, hc, rfl⟩ := List.mem_map.mp h2
      exact hocc c hc

theorem goodQ_length {cfg : Cfg K} {s : Tbl K} {k : K} {qi : Nat}
    {queue : List Node} (h : GoodQ cfg s k qi queue) :
    queue.length = scanLen cfg + qi * blockLen cfg := by
  induction h with
  | base hocc =>
    rw [seeds, List.length_map, scanCells_length, scanLen]
    ring
  | step hq hget hocc ih =>
    rename_i qi' queue' n
    rw [List.length_append, List.length_map, ih,
      childCells_length cfg _ _ (goodQ_table_lt hq n (List.getElem?_mem hget))]
    show scanLen cfg + qi' * blockLen cfg + (cfg.numHashes - 1) * cfg.bucketWidth
      = scanLen cfg + (qi' + 1) * blockLen cfg
    rw [blockLen]
    ring

theorem seeds_entry (cfg : Cfg K) (k : K) (i : Nat)
    (hi : i < (scanCells cfg k).length) :
    (seeds cfg k)[i]? = some ⟨none, (scanCells cfg k).get ⟨i, hi⟩⟩ := by
  rw [seeds, List.getElem?_map, List.getElem?_eq_getElem hi]
  rfl

theorem goodQ_seed_get {cfg : Cfg K} {s : Tbl K} {k : K} {qi : Nat}
    {queue : List Node} (h : GoodQ cfg s k qi queue) (i : Nat)
    (hi : i < scanLen cfg) :
    queue[i]? = (seeds cfg k)[i]? := by
  induction h with
  | base hocc => rfl
  | step hq hget hocc ih =>
    rw [List.getElem?_append_left (by rw [goodQ_length hq]; omega)]
    exact ih

theorem goodQ_block_get {cfg : Cfg K} {s : Tbl K} {k : K} {qi : Nat}
    {queue : List Node} (h : GoodQ cfg s k qi queue) (j r : Nat)
    (hj : j < qi) (hr : r < blockLen cfg) :
    ∃ n c, queue[j]? = some n ∧
      (childCells cfg n.cell.1 (s n.cell.1 n.cell.2))[r]? = some c ∧
      queue[scanLen cfg + j * blockLen cfg + r]? = some ⟨some j, c⟩ := by
  induction h with
  | base hocc => omega
  | step hq hget hocc ih =>
    rename_i qi' queue' n'
    have hbl : 1 ≤ blockLen cfg := by omega
    have hlenq := goodQ_length hq
    rcases Nat.lt_or_ge j qi' with hlt | hge
    · obtain ⟨n, c, h1, h2, h3⟩ := ih hlt
      have hmul : (j + 1) * blockLen cfg ≤ qi' * blockLen cfg :=
        Nat.mul_le_mul_right _ (by omega)
      have hdist : (j + 1) * blockLen cfg = j * blockLen cfg + blockLen cfg := by
        ring
      refine ⟨n, c, ?_, h2, ?_⟩
      · rw [List.getElem?_append_left (by
          rw [hlenq]
          have : qi' * 1 ≤ qi' * blockLen cfg := Nat.mul_le_mul_left qi' hbl
          omega)]
        exact h1
      · rw [List.getElem?_append_left (by rw [hlenq]; omega)]
        exact h3
    · have hjq : j = qi' := by omega
      subst hjq
      have hjlen : j < queue'.length := getElem?_lt _ hget
      have hcl : (childCells cfg n'.cell.1 (s n'.cell.1 n'.cell.2)).length
          = blockLen cfg :=
        childCells_length cfg _ _ (goodQ_table_lt hq n' (List.getElem?_mem hget))
      have hrc : r < (childCells cfg n'.cell.1 (s n'.cell.1 n'.cell.2)).length := by
        rw [hcl]
        exact hr
      refine ⟨n', (childCells cfg n'.cell.1 (s n'.cell.1 n'.cell.2)).get ⟨r, hrc⟩,
        ?_, List.getElem?_eq_getElem hrc, ?_⟩
      · rw [List.getElem?_append_left hjlen]
        exact hget
      · have hpos : scanLen cfg + j * blockLen cfg + r = queue'.length + r := by
          rw [hlenq]
        rw [hpos, List.getElem?_append_right (by omega)]
        have hsub : queue'.length + r - queue'.length = r := by omega
        rw [hsub, List.getElem?_map, List.getElem?_eq_getElem hrc]
        rfl

theorem goodQ_parent {cfg : Cfg K} {s : Tbl K} {k : K} {qi : Nat}
    {queue : List Node} (h : GoodQ cfg s k qi queue) (i : Nat) (n : Node)
    (hn : queue[i]? = some n) :
    (n.parent = none ∧ i < scanLen cfg) ∨
      (∃ j r, n.parent = some j ∧ j < qi ∧ r < blockLen cfg ∧
        i = scanLen cfg + j * blockLen cfg + r) := by
  induction h with
  | base hocc =>
    left
    have hi : i < (seeds cfg k).length := getElem?_lt _ hn
    rw [seeds, List.length_map, scanCells_length] at hi
    constructor
    · rw [seeds, List.getElem?_map] at hn
      rcases hsc : (scanCells cfg k)[i]? with _ | c
      · rw [hsc] at hn; cases hn
      · rw [hsc] at hn
        cases hn
        rfl
    · rw [scanLen]
      exact hi
  | step hq hget hocc ih =>
    rename_i qi' queue' n'
    have hlenq := goodQ_length hq
    rcases Nat.lt_or_ge i queue'.length with hlt | hge
    · rw [List.getElem?_append_left hlt] at hn
      rcases ih hn with ⟨h1, h2⟩ | ⟨j, r, h1, h2, h3, h4⟩
      · exact Or.inl ⟨h1, h2⟩
      · exact Or.inr ⟨j, r, h1, by omega, h3, h4⟩
    · right
      rw [List.getElem?_append_right hge] at hn
      rw [List.getElem?_map] at hn
      rcases hcc : (childCells cfg n'.cell.1
          (s n'.cell.1 n'.cell.2))[i - queue'.length]? with _ | c
      · rw [hcc] at hn; cases hn
      · rw [hcc] at hn
        cases hn
        have hcl : (childCells cfg n'.cell.1 (s n'.cell.1 n'.cell.2)).length
            = blockLen cfg :=
          childCells_length cfg _ _ (goodQ_table_lt hq n' (List.getElem?_mem hget))
        have hrlt := getElem?_lt _ hcc
        rw [hcl] at hrlt
        exact ⟨qi', i - queue'.length, rfl, by omega, hrlt, by omega⟩

theorem goodQ_expanded {cfg : Cfg K} {s : Tbl K} {k : K} {qi : Nat}
    {queue : List Node} (h : GoodQ cfg s k qi queue) (j : Nat) (hj : j < qi)
    (n : Node) (hn : queue[j]? = some n) :
    ∀ c ∈ childCells cfg n.cell.1 (s n.cell.1 n.cell.2), s c.1 c.2 ≠ none := by
  induction h with
  | base hocc => omega
  | step hq hget hocc ih =>
    rename_i qi' queue' n'
    rcases Nat.lt_or_ge j qi' with hlt | hge
    · rw [List.getElem?_append_left (by
        have := getElem?_lt _ hget
        omega)] at hn
      exact ih hlt hn
    · have hj2 : j = qi' := by omega
      subst hj2
      rw [List.getElem?_append_left (getElem?_lt _ hget)] at hn
      rw [hget] at hn
      cases hn
      exact hocc

/-! ### Chains through the BFS queue -/

theorem parentChain_mono (queue extra : List Node) :
    ∀ (fuel : Nat) (n : Node) (chain : List Node),
      parentChain queue n fuel = some chain →
      parentChain (queue ++ extra) n fuel = some chain := by
  intro fuel
  induction fuel with
  | zero =>
    intro n chain h
    rw [parentChain] at h ⊢
    rcases hp : n.parent with _ | p
    · rw [hp] at h
      exact h
    · rw [hp] at h
      replace h : (none : Option (List Node)) = some chain := h
      cases h
  | succ fuel ih =>
    intro n chain h
    rw [parentChain] at h ⊢
    rcases hp : n.parent with _ | p
    · rw [hp] at h
      exact h
    · rw [hp] at h
      replace h : (match queue[p]? with
        | none => none
        | some n2 => Option.map (n :: ·) (parentChain queue n2 fuel))
          = some chain := h
      show (match (queue ++ extra)[p]? with
        | none => none
        | some n2 => Option.map (n :: ·) (parentChain (queue ++ extra) n2 fuel))
          = some chain
      rcases hq : queue[p]? with _ | n2
      · rw [hq] at h
        cases h
      · rw [hq] at h
        rw [List.getElem?_append_left (getElem?_lt _ hq), hq]
        replace h : Option.map (n :: ·) (parentChain queue n2 fuel)
            = some chain := h
        show Option.map (n :: ·) (parentChain (queue ++ extra) n2 fuel)
          = some chain
        rcases hrec : parentChain queue n2 fuel with _ | ch2
        · rw [hrec] at h
          cases h
        · rw [hrec] at h
          rw [ih n2 ch2 hrec]
          exact h

theorem chainAt_head (queue : List Node) (chain : List Node) (idxs : List Nat)
    (h : ChainAt queue chain idxs) :
    ∃ n i restN restI, chain = n :: restN ∧ idxs = i :: restI ∧
      queue[i]? = some n := by
  cases h with
  | root n i hget hp => exact ⟨n, i, [], [], rfl, rfl, hget⟩
  | cons n i p n2 restN restI hget hp hnext => exact ⟨n, i, _, _, rfl, rfl, hget⟩

theorem chainAt_length {queue : List Node} {chain : List Node} {idxs : List Nat}
    (h : ChainAt queue chain idxs) : chain.length = idxs.length := by
  induction h with
  | root n i hget hp => rfl
  | cons n i p n2 restN restI hget hp hnext ih =>
    simp only [List.length_cons] at ih ⊢
    omega

theorem chainAt_get {queue : List Node} {chain : List Node} {idxs : List Nat}
    (h : ChainAt queue chain idxs) :
    ∀ (pos : Nat) (h1 : pos < chain.length) (h2 : pos < idxs.length),
      queue[idxs.get ⟨pos, h2⟩]? = some (chain.get ⟨pos, h1⟩) := by
  induction h with
  | root n i hget hp =>
    intro pos h1 h2
    match pos, h1 with
    | 0, _ => exact hget
  | cons n i p n2 restN restI hget hp hnext ih =>
    intro pos h1 h2
    match pos with
    | 0 => exact hget
    | pos + 1 =>
      exact ih pos (by simp only [List.length_cons] at h1 ⊢; omega)
        (by simp only [List.length_cons] at h2 ⊢; omega)

theorem chainAt_parent {queue : List Node} {chain : List Node} {idxs : List Nat}
    (h : ChainAt queue chain idxs) :
    ∀ (pos : Nat) (h1 : pos + 1 < chain.length) (h2 : pos + 1 < idxs.length),
      (chain.get ⟨pos, by omega⟩).parent = some (idxs.get ⟨pos + 1, h2⟩) := by
  induction h with
  | root n i hget hp =>
    intro pos h1 h2
    simp at h1
  | cons n i p n2 restN restI hget hp hnext ih =>
    intro pos h1 h2
    match pos with
    | 0 => exact hp
    | pos + 1 =>
      exact ih pos (by simp only [List.length_cons] at h1 ⊢; omega)
        (by simp only [List.length_cons] at h2 ⊢; omega)

theorem chainAt_last_parent {queue : List Node} {chain : List Node}
    {idxs : List Nat} (h : ChainAt queue chain idxs) (hne : chain ≠ []) :
    (chain.getLast hne).parent = none := by
  induction h with
  | root n i hget hp => exact hp
  | cons n i p n2 restN restI hget hp hnext ih =>
    rw [List.getLast_cons (by simp)]
    exact ih (by simp)

theorem chainAt_decreasing {queue : List Node}
    (hlt : ∀ (i : Nat) (n : Node) (p : Nat), queue[i]? = some n →
      n.parent = some p → p < i)
    {chain : List Node} {idxs : List Nat} (h : ChainAt queue chain idxs) :
    ∀ (pos : Nat) (h2 : pos + 1 < idxs.length),
      idxs.get ⟨pos + 1, h2⟩ < idxs.get ⟨pos, by omega⟩ := by
  induction h with
  | root n i hget hp =>
    intro pos h2
    simp at h2
  | cons n i p n2 restN restI hget hp hnext ih =>
    intro pos h2
    match pos with
    | 0 => exact hlt i n p hget hp
    | pos + 1 =>
      exact ih pos (by simp only [List.length_cons] at h2 ⊢; omega)

theorem chainAt_le_head {queue : List Node}
    (hlt : ∀ (i : Nat) (n : Node) (p : Nat), queue[i]? = some n →
      n.parent = some p → p < i)
    {chain : List Node} {idxs : List Nat} (h : ChainAt queue chain idxs) :
    ∀ (pos : Nat) (h2 : pos < idxs.length) (h0 : 0 < idxs.length),
      idxs.get ⟨pos, h2⟩ ≤ idxs.get ⟨0, h0⟩ := by
  intro pos
  induction pos with
  | zero => intro h2 h0; exact Nat.le_refl _
  | succ pos ih =>
    intro h2 h0
    have hd := chainAt_decreasing hlt h pos h2
    have := ih (by omega) h0
    omega

theorem goodQ_parent_lt {cfg : Cfg K} {s : Tbl K} {k : K} {qi : Nat}
    {queue : List Node} (h : GoodQ cfg s k qi queue) (i : Nat) (n : Node)
    (p : Nat) (hn : queue[i]? = some n) (hp : n.parent = some p) :
    p < i ∧ p < qi := by
  rcases goodQ_parent h i n hn with ⟨h1, _⟩ | ⟨j, r, h1, hj, hr, hi⟩
  · rw [h1] at hp
    cases hp
  · have hpj : j = p := by
      rw [h1] at hp
      cases hp
      rfl
    have hbl : 1 ≤ blockLen cfg := by omega
    have hsl : blockLen cfg ≤ scanLen cfg := by
      rw [scanLen, blockLen]
      exact Nat.mul_le_mul_right _ (by omega)
    have hmul : j * 1 ≤ j * blockLen cfg := Nat.mul_le_mul_left j hbl
    omega

theorem parentChain_chainAt {cfg : Cfg K} {s : Tbl K} {k : K} {qi : Nat}
    {queue : List Node} (h : GoodQ cfg s k qi queue) :
    ∀ (i : Nat) (n : Node), queue[i]? = some n → ∀ (fuel : Nat), i ≤ fuel →
      ∃ chain idxs, parentChain queue n fuel = some chain ∧
        ChainAt queue chain (i :: idxs) := by
  intro i
  induction i using Nat.strong_induction_on with
  | _ i ih =>
    intro n hn fuel hfuel
    rcases hp : n.parent with _ | p
    · refine ⟨[n], [], ?_, ChainAt.root n i hn hp⟩
      rw [parentChain, hp]
    · obtain ⟨hpi, hpqi⟩ := goodQ_parent_lt h i n p hn hp
      have hplen : p < queue.length := by
        have := getElem?_lt _ hn
        omega
      obtain ⟨n2, hn2⟩ : ∃ n2, queue[p]? = some n2 :=
        ⟨queue[p], List.getElem?_eq_getElem hplen⟩
      rcases fuel with _ | fuel
      · omega
      · obtain ⟨chain2, idxs2, hpc2, hca2⟩ := ih p hpi n2 hn2 fuel (by omega)
        obtain ⟨n2', p', restN, restI, hch2, hidx2, hget2⟩ :=
          chainAt_head _ _ _ hca2
        injection hidx2 with hpp hrr
        rw [← hpp] at hget2
        have hnn : n2' = n2 := by
          have h9 := hget2
          rw [hn2] at h9
          exact (Option.some.inj h9).symm
        rw [hnn] at hch2
        refine ⟨n :: chain2, p :: idxs2, ?_, ?_⟩
        · rw [parentChain, hp]
          show (match queue[p]? with
            | none => none
            | some n3 => Option.map (n :: ·) (parentChain queue n3 fuel))
              = some (n :: chain2)
          rw [hn2]
          show Option.map (n :: ·) (parentChain queue n2 fuel)
            = some (n :: chain2)
          rw [hpc2]
          rfl
        · rw [hch2]
          rw [hch2] at hca2
          exact ChainAt.cons n i p n2 restN idxs2 hn hp hca2

/-! ### Materialized chains never repeat a cell

An expanded queue entry examines only its cell's occupant, so two entries
with the same cell have identical child lists, and the earlier one pushed
its copies first.  A repeat inside a chain therefore mirrors down to an
earlier entry with the same cell as the entry whose expansion found the
empty slot — but that earlier entry was expanded without finding one,
which is absurd since expansion results depend only on the cell. -/

theorem dup_step {cfg : Cfg K} {s : Tbl K} {k : K} {qi : Nat}
    {queue : List Node} (h : GoodQ cfg s k qi queue)
    (i p : Nat) (n n2 : Node)
    (hn : queue[i]? = some n) (hp : n.parent = some p)
    (hn2 : queue[p]? = some n2)
    (hdup : DupAt queue p) : DupAt queue i := by
  obtain ⟨j, hj, nj, np, hnj, hnp, hcell⟩ := hdup
  have hnpn2 : np = n2 := by
    have h9 := hnp
    rw [hn2] at h9
    exact (Option.some.inj h9).symm
  rcases goodQ_parent h i n hn with ⟨h1, _⟩ | ⟨p2, r, h1, hp2, hr, hi⟩
  · rw [h1] at hp
    cases hp
  · have hpp : p2 = p := by
      rw [h1] at hp
      exact Option.some.inj hp
    rw [hpp] at hp2 hi
    obtain ⟨npB, cB, hnpB, hccB, hiB⟩ := goodQ_block_get h p r hp2 hr
    have hnpB2 : npB = n2 := by
      have h9 := hnpB
      rw [hn2] at h9
      exact (Option.some.inj h9).symm
    have hnB : n = ⟨some p, cB⟩ := by
      rw [← hi] at hiB
      have h9 := hiB
      rw [hn] at h9
      exact Option.some.inj h9
    obtain ⟨njB, cj, hnjB, hccj, hjB⟩ := goodQ_block_get h j r (by omega) hr
    have hnjB2 : njB = nj := by
      have h9 := hnjB
      rw [hnj] at h9
      exact (Option.some.inj h9).symm
    have hcell2 : nj.cell = n2.cell := by
      rw [hcell, hnpn2]
    have hsame : childCells cfg nj.cell.1 (s nj.cell.1 nj.cell.2)
        = childCells cfg n2.cell.1 (s n2.cell.1 n2.cell.2) := by
      rw [hcell2]
    have hcjB : cj = cB := by
      rw [hnjB2, hsame] at hccj
      rw [hnpB2] at hccB
      have h9 := hccj
      rw [hccB] at h9
      exact (Option.some.inj h9).symm
    have hbl : 1 ≤ blockLen cfg := by omega
    have hidx : scanLen cfg + j * blockLen cfg + r < i := by
      have h5 : (j + 1) * blockLen cfg ≤ p * blockLen cfg :=
        Nat.mul_le_mul_right _ (by omega)
      have h6 : (j + 1) * blockLen cfg = j * blockLen cfg + blockLen cfg := by
        ring
      omega
    refine ⟨scanLen cfg + j * blockLen cfg + r, hidx, ⟨some j, cj⟩, n, hjB, hn, ?_⟩
    rw [hnB]
    exact hcjB

theorem dup_to_head {cfg : Cfg K} {s : Tbl K} {k : K} {qi : Nat}
    {queue : List Node} (h : GoodQ cfg s k qi queue) :
    ∀ {chain : List Node} {idxs : List Nat}, ChainAt queue chain idxs →
      ∀ (pos : Nat) (h2 : pos < idxs.length),
        DupAt queue (idxs.get ⟨pos, h2⟩) →
        DupAt queue (idxs.get ⟨0, by omega⟩) := by
  intro chain idxs hca
  induction hca with
  | root n i hget hp =>
    intro pos h2 hdup
    match pos, h2 with
    | 0, h2 => exact hdup
  | cons n i p n2 restN restI hget hp hnext ih =>
    intro pos h2 hdup
    match pos with
    | 0 => exact hdup
    | pos + 1 =>
      have h2b : pos < (p :: restI).length := by
        simp only [List.length_cons] at h2 ⊢
        omega
      have hdp : DupAt queue ((p :: restI).get ⟨pos, h2b⟩) := hdup
      have hdhead : DupAt queue p := ih pos h2b hdp
      obtain ⟨n2h, ph, rN, rI, hch, hidx, hgetp⟩ := chainAt_head _ _ _ hnext
      injection hidx with hpp hrr
      rw [← hpp] at hgetp
      exact dup_step h i p n n2h hget hp hgetp hdhead

theorem head_dup_false {cfg : Cfg K} {s : Tbl K} {k : K} {qi : Nat}
    {queue : List Node} (h : GoodQ cfg s k qi queue)
    (nq : Node) (hqn : queue[qi]? = some nq)
    (cE : Nat × Nat)
    (hmem : cE ∈ childCells cfg nq.cell.1 (s nq.cell.1 nq.cell.2))
    (hempty : s cE.1 cE.2 = none) : ¬ DupAt queue qi := by
  rintro ⟨j, hj, nj, ni, hnj, hni, hcell⟩
  have hninq : ni = nq := by
    have h9 := hni
    rw [hqn] at h9
    exact (Option.some.inj h9).symm
  have hsame : childCells cfg nj.cell.1 (s nj.cell.1 nj.cell.2)
      = childCells cfg nq.cell.1 (s nq.cell.1 nq.cell.2) := by
    rw [hcell, hninq]
  exact goodQ_expanded h j hj nj hnj cE (by rw [hsame]; exact hmem) hempty

theorem chainAt_strict_anti {queue : List Node}
    (hlt : ∀ (i : Nat) (n : Node) (p : Nat), queue[i]? = some n →
      n.parent = some p → p < i)
    {chain : List Node} {idxs : List Nat} (h : ChainAt queue chain idxs) :
    ∀ (a b : Nat) (ha : a < idxs.length) (hb : b < idxs.length), a < b →
      idxs.get ⟨b, hb⟩ < idxs.get ⟨a, ha⟩ := by
  intro a b
  induction b with
  | zero =>
    intro ha hb hab
    omega
  | succ b ihb =>
    intro ha hb hab
    rcases Nat.lt_or_ge a b with h1 | h2
    · have hbb : b < idxs.length := by omega
      have hd := chainAt_decreasing hlt h b hb
      have hi := ihb ha hbb h1
      omega
    · have hab2 : a = b := by omega
      subst hab2
      exact chainAt_decreasing hlt h a hb

theorem chain_cells_nodup {cfg : Cfg K} {s : Tbl K} {k : K} {qi : Nat}
    {queue : List Node} (h : GoodQ cfg s k qi queue)
    {chainQ : List Node} {idxs : List Nat}
    (hca : ChainAt queue chainQ (qi :: idxs))
    (nq : Node) (hqn : queue[qi]? = some nq)
    (cE : Nat × Nat)
    (hmem : cE ∈ childCells cfg nq.cell.1 (s nq.cell.1 nq.cell.2))
    (hempty : s cE.1 cE.2 = none) :
    (chainQ.map (·.cell)).Nodup ∧ cE ∉ chainQ.map (·.cell) := by
  have hlt : ∀ (i : Nat) (n : Node) (p : Nat), queue[i]? = some n →
      n.parent = some p → p < i := fun i n p hn hp =>
    (goodQ_parent_lt h i n p hn hp).1
  have hlen : chainQ.length = (qi :: idxs).length := chainAt_length hca
  have key : ∀ (a b : Nat) (ha : a < chainQ.length) (hb : b < chainQ.length),
      a < b → (chainQ.get ⟨a, ha⟩).cell ≠ (chainQ.get ⟨b, hb⟩).cell := by
    intro a b ha hb hab hceq
    have ha2 : a < (qi :: idxs).length := by omega
    have hb2 : b < (qi :: idxs).length := by omega
    have hga := chainAt_get hca a ha ha2
    have hgb := chainAt_get hca b hb hb2
    have hdec := chainAt_strict_anti hlt hca a b ha2 hb2 hab
    have hdup : DupAt queue ((qi :: idxs).get ⟨a, ha2⟩) :=
      ⟨(qi :: idxs).get ⟨b, hb2⟩, hdec, chainQ.get ⟨b, hb⟩, chainQ.get ⟨a, ha⟩,
        hgb, hga, hceq.symm⟩
    have hd0 := dup_to_head h hca a ha2 hdup
    exact head_dup_false h nq hqn cE hmem hempty hd0
  constructor
  · rw [List.nodup_iff_injective_get]
    intro u v huv
    by_contra hne
    have hul : u.val < chainQ.length := by
      have h0 := u.isLt
      simp only [List.length_map] at h0
      exact h0
    have hvl : v.val < chainQ.length := by
      have h0 := v.isLt
      simp only [List.length_map] at h0
      exact h0
    have hmapu : (chainQ.map (·.cell)).get u = (chainQ.get ⟨u.val, hul⟩).cell :=
      List.get_map _
    have hmapv : (chainQ.map (·.cell)).get v = (chainQ.get ⟨v.val, hvl⟩).cell :=
      List.get_map _
    have hcells : (chainQ.get ⟨u.val, hul⟩).cell
        = (chainQ.get ⟨v.val, hvl⟩).cell := by
      rw [← hmapu, ← hmapv, huv]
    have huv2 : u.val ≠ v.val := by
      intro hval
      exact hne (Fin.ext hval)
    rcases Nat.lt_or_ge u.val v.val with h1 | h2
    · exact key u.val v.val hul hvl h1 hcells
    · exact key v.val u.val hvl hul (by omega) hcells.symm
  · intro hmemE
    obtain ⟨nE, hnE, hcellE⟩ := List.mem_map.mp hmemE
    obtain ⟨pos, hget⟩ := List.get_of_mem hnE
    have hpos2 : pos.val < (qi :: idxs).length := by
      have := pos.isLt
      omega
    have hq2 := chainAt_get hca pos.val pos.isLt hpos2
    rw [hget] at hq2
    have hocc := goodQ_occupied h nE (List.getElem?_mem hq2)
    rw [hcellE] at hocc
    exact hocc hempty

/-! ### Wiring the BFS pieces together -/

theorem pushLoop_inr (s : Tbl K) (qi : Nat) :
    ∀ (cs : List (Nat × Nat)) (queue : List Node) (tail : Node)
      (qAC : List Node),
      pushLoop s qi queue cs = Sum.inr (tail, qAC) →
      ∃ pre c post, cs = pre ++ c :: post ∧
        (∀ c2 ∈ pre, s c2.1 c2.2 ≠ none) ∧ s c.1 c.2 = none ∧
        tail = ⟨some qi, c⟩ ∧
        qAC = queue ++ pre.map fun c2 => ⟨some qi, c2⟩ := by
  intro cs
  induction cs with
  | nil =>
    intro queue tail qAC h
    rw [pushLoop] at h
    cases h
  | cons c0 rest ih =>
    intro queue tail qAC h
    rw [pushLoop] at h
    split at h
    · rename_i hc0
      cases h
      exact ⟨[], c0, rest, rfl, by simp, hc0, rfl, by simp⟩
    · rename_i hc0
      obtain ⟨pre, c, post, h1, h2, h3, h4, h5⟩ := ih _ _ _ h
      refine ⟨c0 :: pre, c, post, by rw [h1]; rfl, ?_, h3, h4, ?_⟩
      · intro c2 hc2
        rcases List.mem_cons.mp hc2 with rfl | hm
        · exact hc0
        · exact h2 c2 hm
      · rw [h5]
        simp

theorem probeCell_of_scan (cfg : Cfg K) (k : K) (c : Nat × Nat)
    (h : c ∈ scanCells cfg k) : ProbeCell cfg c := by
  obtain ⟨t, ht, d, hd, rfl⟩ := (mem_scanCells cfg k c).mp h
  exact ⟨t, d, cfg.hash t k, ht, hd, rfl⟩

theorem probeCell_of_child (cfg : Cfg K) (t : Nat) (v : Option K)
    (c : Nat × Nat) (h : c ∈ childCells cfg t v) : ProbeCell cfg c := by
  obtain ⟨t2, ht2, _, d, hd, rfl⟩ := (mem_childCells cfg t v c).mp h
  exact ⟨t2, d, slotHash cfg t2 v, ht2, hd, rfl⟩

theorem probeCell_range (cfg : Cfg K) (c : Nat × Nat) (hB : 0 < cfg.B)
    (h : ProbeCell cfg c) : c.1 < cfg.numHashes ∧ c.2 < cfg.B := by
  obtain ⟨t, d, hsh, ht, hd, rfl⟩ := h
  exact ⟨ht, probe_lt cfg hsh hB d⟩

theorem goodQ_cell_probe {cfg : Cfg K} {s : Tbl K} {k : K} {qi : Nat}
    {queue : List Node} (h : GoodQ cfg s k qi queue) :
    ∀ n ∈ queue, ProbeCell cfg n.cell := by
  induction h with
  | base hocc =>
    intro n hn
    obtain ⟨c, hc, rfl⟩ := List.mem_map.mp hn
    exact probeCell_of_scan cfg k c hc
  | step hq hget hocc ih =>
    intro n hn
    rcases List.mem_append.mp hn with h1 | h2
    · exact ih n h1
    · obtain ⟨c, hc, rfl⟩ := List.mem_map.mp h2
      exact probeCell_of_child cfg _ _ c hc

theorem chain_linked {cfg : Cfg K} {s : Tbl K} {k : K} {qi : Nat}
    {queue : List Node} (h : GoodQ cfg s k qi queue)
    {chainQ : List Node} {idxs : List Nat}
    (hca : ChainAt queue chainQ (qi :: idxs)) :
    ∀ (pos : Nat) (h1 : pos + 1 < chainQ.length),
      (chainQ.get ⟨pos, by omega⟩).cell ∈
        childCells cfg (chainQ.get ⟨pos + 1, h1⟩).cell.1
          (s (chainQ.get ⟨pos + 1, h1⟩).cell.1
             (chainQ.get ⟨pos + 1, h1⟩).cell.2) := by
  intro pos h1
  have hlen : chainQ.length = (qi :: idxs).length := chainAt_length hca
  have h2 : pos + 1 < (qi :: idxs).length := by omega
  have hgp := chainAt_get hca pos (by omega) (by omega)
  have hgp1 := chainAt_get hca (pos + 1) h1 h2
  have hpar := chainAt_parent hca pos h1 h2
  rcases goodQ_parent h ((qi :: idxs).get ⟨pos, by omega⟩)
      (chainQ.get ⟨pos, by omega⟩) hgp with
    ⟨hnone, _⟩ | ⟨j, r, hsome, hj, hr, hi⟩
  · rw [hpar] at hnone
    cases hnone
  · have hjJ : j = (qi :: idxs).get ⟨pos + 1, h2⟩ := by
      rw [hpar] at hsome
      exact (Option.some.inj hsome).symm
    obtain ⟨nP, cB, hnP, hcc, hiB⟩ := goodQ_block_get h j r hj hr
    rw [hi, hiB] at hgp
    have hent : chainQ.get ⟨pos, by omega⟩ = ⟨some j, cB⟩ :=
      (Option.some.inj hgp).symm
    rw [← hjJ, hnP] at hgp1
    have hnPe : nP = chainQ.get ⟨pos + 1, h1⟩ := Option.some.inj hgp1
    have hmem : cB ∈ childCells cfg nP.cell.1 (s nP.cell.1 nP.cell.2) :=
      List.getElem?_mem hcc
    rw [← hnPe, hent]
    exact hmem

theorem chain_root_seed {cfg : Cfg K} {s : Tbl K} {k : K} {qi : Nat}
    {queue : List Node} (h : GoodQ cfg s k qi queue)
    {chainQ : List Node} {idxs : List Nat}
    (hca : ChainAt queue chainQ (qi :: idxs)) (hne : chainQ ≠ []) :
    (chainQ.getLast hne).cell ∈ scanCells cfg k := by
  have hlen : chainQ.length = (qi :: idxs).length := chainAt_length hca
  have hpos : chainQ.length - 1 < chainQ.length :=
    Nat.sub_lt (List.length_pos.mpr hne) Nat.one_pos
  have hpos2 : chainQ.length - 1 < (qi :: idxs).length := by omega
  have hg := chainAt_get hca (chainQ.length - 1) hpos hpos2
  have hlast : chainQ.getLast hne = chainQ.get ⟨chainQ.length - 1, hpos⟩ :=
    List.getLast_eq_get _ _
  have hroot := chainAt_last_parent hca hne
  rw [hlast] at hroot
  rcases goodQ_parent h _ _ hg with ⟨hnone, hlt⟩ | ⟨j, r, hsome, _, _, _⟩
  · have hsl : (qi :: idxs).get ⟨chainQ.length - 1, hpos2⟩
        < (scanCells cfg k).length := by
      rw [scanCells_length]
      exact hlt
    have hseed := goodQ_seed_get h _ hlt
    rw [hseed, seeds_entry cfg k _ hsl] at hg
    have hent := Option.some.inj hg
    rw [hlast, ← hent]
    exact List.get_mem _ _ _
  · rw [hroot] at hsome
    cases hsome

theorem no_key_global {cfg : Cfg K} {s : Tbl K} {k : K}
    (hres : Resident cfg s)
    (hscanK : ∀ c ∈ scanCells cfg k, s c.1 c.2 ≠ some k) :
    ∀ t j, t < cfg.numHashes → j < cfg.B → s t j ≠ some k := by
  intro t j ht hj hk
  obtain ⟨d, hd, hjp⟩ := hres t j k ht hj hk
  have hmem : ((t, probe cfg (cfg.hash t k) d) : Nat × Nat) ∈ scanCells cfg k :=
    (mem_scanCells cfg k _).mpr ⟨t, ht, d, hd, rfl⟩
  apply hscanK _ hmem
  show s t (probe cfg (cfg.hash t k) d) = some k
  rw [← hjp]
  exact hk

theorem chainAt_mem {queue : List Node} {chain : List Node} {idxs : List Nat}
    (h : ChainAt queue chain idxs) : ∀ n ∈ chain, n ∈ queue := by
  induction h with
  | root n i hget hp =>
    intro n2 hn2
    rcases List.mem_cons.mp hn2 with rfl | hm
    · exact List.getElem?_mem hget
    · cases hm
  | cons n i p n2 restN restI hget hp hnext ih =>
    intro n3 hn3
    rcases List.mem_cons.mp hn3 with rfl | hm
    · exact List.getElem?_mem hget
    · exact ih n3 hm

theorem nodup_map_cell_inj {l : List Node} (hnd : (l.map (·.cell)).Nodup)
    (a b : Nat) (ha : a < l.length) (hb : b < l.length)
    (hab : (l.get ⟨a, ha⟩).cell = (l.get ⟨b, hb⟩).cell) : a = b := by
  have ha2 : a < (l.map (·.cell)).length := by rw [List.length_map]; exact ha
  have hb2 : b < (l.map (·.cell)).length := by rw [List.length_map]; exact hb
  have hga : (l.map (·.cell)).get ⟨a, ha2⟩ = (l.get ⟨a, ha⟩).cell :=
    List.get_map _
  have hgb : (l.map (·.cell)).get ⟨b, hb2⟩ = (l.get ⟨b, hb⟩).cell :=
    List.get_map _
  have heq : (l.map (·.cell)).get ⟨a, ha2⟩ = (l.map (·.cell)).get ⟨b, hb2⟩ := by
    rw [hga, hgb]; exact hab
  have h2 := List.nodup_iff_injective_get.mp hnd heq
  exact congrArg Fin.val h2

theorem mem_map_cell_pos {l : List Node} {c : Nat × Nat}
    (hc : c ∈ l.map (·.cell)) :
    ∃ (pos : Nat) (hp : pos < l.length), (l.get ⟨pos, hp⟩).cell = c := by
  obtain ⟨n, hn, hcn⟩ := List.mem_map.mp hc
  obtain ⟨posF, hpos⟩ := List.get_of_mem hn
  exact ⟨posF.val, posF.isLt, (congrArg Node.cell hpos).trans hcn⟩

/-- The combinatorial heart of phase 2: if `s2` arises from `s` by shifting
each occupant of a duplicate-free, child-linked chain one step toward the
tail (whose slot was empty), and the root cell — subsequently initialized
with `k` — is one of `k`'s scan cells, then residence, uniqueness, and
presence of previously present keys all carry over, and `k` is present. -/
theorem chain_insert_preserves (cfg : Cfg K) (s s2 : Tbl K) (k : K)
    (ch : List Node) (vac : Node)
    (hres : Resident cfg s) (huniq : UniqueKeys cfg s)
    (hscanK : ∀ c ∈ scanCells cfg k, s c.1 c.2 ≠ some k)
    (hprobe : ∀ n ∈ ch, ProbeCell cfg n.cell)
    (hnd : (ch.map (·.cell)).Nodup)
    (hlink : ∀ (pos : Nat) (h2 : pos + 1 < ch.length),
      (ch.get ⟨pos, by omega⟩).cell ∈
        childCells cfg (ch.get ⟨pos + 1, h2⟩).cell.1
          (s (ch.get ⟨pos + 1, h2⟩).cell.1 (ch.get ⟨pos + 1, h2⟩).cell.2))
    (hlen : 0 < ch.length)
    (hvg : ch.get ⟨ch.length - 1, by omega⟩ = vac)
    (hvacscan : vac.cell ∈ scanCells cfg k)
    (hheadempty : s (ch.get ⟨0, hlen⟩).cell.1 (ch.get ⟨0, hlen⟩).cell.2 = none)
    (hshift : ∀ (i : Nat) (h2 : i + 1 < ch.length),
      s2 (ch.get ⟨i, by omega⟩).cell.1 (ch.get ⟨i, by omega⟩).cell.2
        = s (ch.get ⟨i + 1, h2⟩).cell.1 (ch.get ⟨i + 1, h2⟩).cell.2)
    (hframe : ∀ c : Nat × Nat, c ∉ ch.map (·.cell) → s2 c.1 c.2 = s c.1 c.2) :
    Resident cfg (setSlot s2 vac.cell (some k)) ∧
      UniqueKeys cfg (setSlot s2 vac.cell (some k)) ∧
      (∀ k2, present cfg s k2 → present cfg (setSlot s2 vac.cell (some k)) k2) ∧
      (0 < cfg.B → present cfg (setSlot s2 vac.cell (some k)) k) := by
  have hvpos : ∀ (pos : Nat) (hp : pos < ch.length),
      (ch.get ⟨pos, hp⟩).cell = vac.cell → pos = ch.length - 1 := by
    intro pos hp hcell
    apply nodup_map_cell_inj hnd pos (ch.length - 1) hp (by omega)
    rw [hcell, hvg]
  have hvac_mem_cells : vac.cell ∈ ch.map (·.cell) := by
    rw [← hvg]
    exact List.mem_map.mpr ⟨_, List.get_mem _ _ _, rfl⟩
  have hsrc : ∀ (x y : Nat) (κ2 : K), ((x, y) : Nat × Nat) ≠ vac.cell →
      setSlot s2 vac.cell (some k) x y = some κ2 →
      (((x, y) : Nat × Nat) ∉ ch.map (·.cell) ∧ s x y = some κ2) ∨
      (∃ (pos : Nat) (hp2 : pos + 1 < ch.length),
        (ch.get ⟨pos, by omega⟩).cell = (x, y) ∧
        s (ch.get ⟨pos + 1, hp2⟩).cell.1 (ch.get ⟨pos + 1, hp2⟩).cell.2
          = some κ2) := by
    intro x y κ2 hne h1
    have h2 : s2 x y = some κ2 := by
      have h3 := setSlot_ne s2 vac.cell (some k) (x, y) hne
      rw [← h3]
      exact h1
    by_cases hmc : ((x, y) : Nat × Nat) ∈ ch.map (·.cell)
    · right
      obtain ⟨pos, hp, hcpos⟩ := mem_map_cell_pos hmc
      have hpne : pos ≠ ch.length - 1 := by
        intro hcon
        apply hne
        rw [← hcpos]
        subst hcon
        rw [hvg]
      have hp2 : pos + 1 < ch.length := by omega
      refine ⟨pos, hp2, hcpos, ?_⟩
      rw [← hshift pos hp2, hcpos]
      exact h2
    · left
      refine ⟨hmc, ?_⟩
      have h3 := hframe (x, y) hmc
      rw [← h3]
      exact h2
  have hchrange : ∀ (hB : 0 < cfg.B) (pos : Nat) (hp : pos < ch.length),
      (ch.get ⟨pos, hp⟩).cell.1 < cfg.numHashes ∧
        (ch.get ⟨pos, hp⟩).cell.2 < cfg.B := by
    intro hB pos hp
    exact probeCell_range cfg _ hB (hprobe _ (List.get_mem _ _ _))
  refine ⟨?_, ?_, ?_, ?_⟩
  · intro t j κ ht hj hsome3
    by_cases hvc : ((t, j) : Nat × Nat) = vac.cell
    · have ht1 : t = vac.cell.1 := congrArg Prod.fst hvc
      have hj1 : j = vac.cell.2 := congrArg Prod.snd hvc
      have hkk : setSlot s2 vac.cell (some k) t j = some k := by
        rw [ht1, hj1]
        exact setSlot_same s2 vac.cell (some k)
      have hκ : k = κ := by
        rw [hkk] at hsome3
        exact Option.some.inj hsome3
      subst hκ
      obtain ⟨t2, ht2, d, hd, hform⟩ := (mem_scanCells cfg k _).mp hvacscan
      have hpair : ((t, j) : Nat × Nat) = (t2, probe cfg (cfg.hash t2 k) d) :=
        hvc.trans hform
      have h1 : t = t2 := congrArg Prod.fst hpair
      have h2 : j = probe cfg (cfg.hash t2 k) d := congrArg Prod.snd hpair
      refine ⟨d, hd, ?_⟩
      rw [h2, h1]
    · rcases hsrc t j κ hvc hsome3 with ⟨hmc, hs⟩ | ⟨pos, hp2, hcpos, hnext⟩
      · exact hres t j κ ht hj hs
      · have hlk := hlink pos hp2
        rw [hcpos, hnext] at hlk
        obtain ⟨t2, ht2, hne2, d, hd, hform⟩ := (mem_childCells cfg _ _ _).mp hlk
        have h1 : t = t2 := congrArg Prod.fst hform
        have h2 : j = probe cfg (slotHash cfg t2 (some κ)) d :=
          congrArg Prod.snd hform
        refine ⟨d, hd, ?_⟩
        rw [h2, h1]
        rfl
  · intro t j t' j' κ ht hj ht' hj' h1 h2
    have hB : 0 < cfg.B := by omega
    by_cases hvc1 : ((t, j) : Nat × Nat) = vac.cell
    · by_cases hvc2 : ((t', j') : Nat × Nat) = vac.cell
      · have hpair := hvc1.trans hvc2.symm
        exact ⟨congrArg Prod.fst hpair, congrArg Prod.snd hpair⟩
      · exfalso
        have hκ : k = κ := by
          have ht1 : t = vac.cell.1 := congrArg Prod.fst hvc1
          have hj1 : j = vac.cell.2 := congrArg Prod.snd hvc1
          have hkk : setSlot s2 vac.cell (some k) t j = some k := by
            rw [ht1, hj1]
            exact setSlot_same s2 vac.cell (some k)
          rw [hkk] at h1
          exact Option.some.inj h1
        subst hκ
        rcases hsrc t' j' k hvc2 h2 with ⟨hmc, hs⟩ | ⟨pos, hp2, hcpos, hnext⟩
        · exact no_key_global hres hscanK t' j' ht' hj' hs
        · have hrange := hchrange hB (pos + 1) (by omega)
          exact no_key_global hres hscanK _ _ hrange.1 hrange.2 hnext
    · by_cases hvc2 : ((t', j') : Nat × Nat) = vac.cell
      · exfalso
        have hκ : k = κ := by
          have ht1 : t' = vac.cell.1 := congrArg Prod.fst hvc2
          have hj1 : j' = vac.cell.2 := congrArg Prod.snd hvc2
          have hkk : setSlot s2 vac.cell (some k) t' j' = some k := by
            rw [ht1, hj1]
            exact setSlot_same s2 vac.cell (some k)
          rw [hkk] at h2
          exact Option.some.inj h2
        subst hκ
        rcases hsrc t j k hvc1 h1 with ⟨hmc, hs⟩ | ⟨pos, hp2, hcpos, hnext⟩
        · exact no_key_global hres hscanK t j ht hj hs
        · have hrange := hchrange hB (pos + 1) (by omega)
          exact no_key_global hres hscanK _ _ hrange.1 hrange.2 hnext
      · rcases hsrc t j κ hvc1 h1 with ⟨hmc1, hs1⟩ | ⟨pos1, hpa, hcpos1, hnext1⟩
        · rcases hsrc t' j' κ hvc2 h2 with ⟨hmc2, hs2⟩ | ⟨pos2, hpb, hcpos2, hnext2⟩
          · exact huniq t j t' j' κ ht hj ht' hj' hs1 hs2
          · exfalso
            have hrange := hchrange hB (pos2 + 1) (by omega)
            have hu := huniq t j (ch.get ⟨pos2 + 1, hpb⟩).cell.1
              (ch.get ⟨pos2 + 1, hpb⟩).cell.2 κ ht hj hrange.1 hrange.2 hs1 hnext2
            apply hmc1
            have hpair : ((t, j) : Nat × Nat) = (ch.get ⟨pos2 + 1, hpb⟩).cell :=
              Prod.ext hu.1 hu.2
            rw [hpair]
            exact List.mem_map.mpr ⟨_, List.get_mem _ _ _, rfl⟩
        · rcases hsrc t' j' κ hvc2 h2 with ⟨hmc2, hs2⟩ | ⟨pos2, hpb, hcpos2, hnext2⟩
          · exfalso
            have hrange := hchrange hB (pos1 + 1) (by omega)
            have hu := huniq (ch.get ⟨pos1 + 1, hpa⟩).cell.1
              (ch.get ⟨pos1 + 1, hpa⟩).cell.2 t' j' κ hrange.1 hrange.2 ht' hj'
              hnext1 hs2
            apply hmc2
            have hpair : ((t', j') : Nat × Nat) = (ch.get ⟨pos1 + 1, hpa⟩).cell :=
              (Prod.ext hu.1 hu.2).symm
            rw [hpair]
            exact List.mem_map.mpr ⟨_, List.get_mem _ _ _, rfl⟩
          · have hrange1 := hchrange hB (pos1 + 1) (by omega)
            have hrange2 := hchrange hB (pos2 + 1) (by omega)
            have hu := huniq _ _ _ _ κ hrange1.1 hrange1.2 hrange2.1 hrange2.2
              hnext1 hnext2
            have hcells : (ch.get ⟨pos1 + 1, hpa⟩).cell
                = (ch.get ⟨pos2 + 1, hpb⟩).cell := Prod.ext hu.1 hu.2
            have hpp := nodup_map_cell_inj hnd (pos1 + 1) (pos2 + 1) hpa hpb hcells
            have hpos : pos1 = pos2 := by omega
            subst hpos
            have hpair : ((t, j) : Nat × Nat) = ((t', j') : Nat × Nat) :=
              hcpos1.symm.trans hcpos2
            exact ⟨congrArg Prod.fst hpair, congrArg Prod.snd hpair⟩
  · intro k2 hpres
    obtain ⟨tz, jz, htz, hjz, hsz⟩ := hpres
    have hB : 0 < cfg.B := by omega
    by_cases hmz : ((tz, jz) : Nat × Nat) ∈ ch.map (·.cell)
    · obtain ⟨pos, hp, hcz⟩ := mem_map_cell_pos hmz
      have hpos0 : pos ≠ 0 := by
        intro hcon
        subst hcon
        have h9 := hheadempty
        rw [hcz] at h9
        have h10 : s tz jz = none := h9
        rw [h10] at hsz
        cases hsz
      obtain ⟨pos2, rfl⟩ : ∃ pos2, pos = pos2 + 1 := ⟨pos - 1, by omega⟩
      have hp2 : pos2 + 1 < ch.length := hp
      have hsh := hshift pos2 hp2
      have hs2w : s2 (ch.get ⟨pos2, by omega⟩).cell.1
          (ch.get ⟨pos2, by omega⟩).cell.2 = some k2 := by
        rw [hsh, hcz]
        exact hsz
      have hwne : (ch.get ⟨pos2, by omega⟩).cell ≠ vac.cell := by
        intro hcon
        have h9 := hvpos pos2 (by omega) hcon
        omega
      have hw3 : setSlot s2 vac.cell (some k) (ch.get ⟨pos2, by omega⟩).cell.1
          (ch.get ⟨pos2, by omega⟩).cell.2 = some k2 := by
        rw [setSlot_ne s2 vac.cell (some k) _ hwne]
        exact hs2w
      have hrange := hchrange hB pos2 (by omega)
      exact ⟨_, _, hrange.1, hrange.2, hw3⟩
    · have hzne : ((tz, jz) : Nat × Nat) ≠ vac.cell := by
        intro hcon
        apply hmz
        rw [hcon]
        exact hvac_mem_cells
      have h3 : setSlot s2 vac.cell (some k) tz jz = some k2 := by
        have ha := setSlot_ne s2 vac.cell (some k) (tz, jz) hzne
        have hb := hframe (tz, jz) hmz
        have hc : setSlot s2 vac.cell (some k) tz jz = s tz jz := ha.trans hb
        rw [hc]
        exact hsz
      exact ⟨tz, jz, htz, hjz, h3⟩
  · intro hB
    have hrange := probeCell_range cfg vac.cell hB
      (probeCell_of_scan cfg k vac.cell hvacscan)
    exact ⟨vac.cell.1, vac.cell.2, hrange.1, hrange.2,
      setSlot_same s2 vac.cell (some k)⟩

/-- One successful BFS eviction during `insert k` — expansion of the entry
at `qi` found an empty child, `EvictChain` succeeded, the vacated root was
initialized with `k` — preserves residence, uniqueness and presence. -/
theorem evict_case_spec {cfg : Cfg K} {s : Tbl K} {k : K} {qi : Nat}
    {queue : List Node}
    (hres : Resident cfg s) (huniq : UniqueKeys cfg s)
    (hscanK : ∀ c ∈ scanCells cfg k, s c.1 c.2 ≠ some k)
    (h : GoodQ cfg s k qi queue)
    {nq : Node} (hqn : queue[qi]? = some nq)
    {tail : Node} {qAC : List Node}
    (hpush : pushLoop s qi queue
      (childCells cfg nq.cell.1 (s nq.cell.1 nq.cell.2)) = Sum.inr (tail, qAC))
    {vac : Node} {s2 : Tbl K}
    (hE : evictChain cfg s qAC tail = some (vac, s2)) :
    Resident cfg (setSlot s2 vac.cell (some k)) ∧
      UniqueKeys cfg (setSlot s2 vac.cell (some k)) ∧
      (∀ k2, present cfg s k2 → present cfg (setSlot s2 vac.cell (some k)) k2) ∧
      (0 < cfg.B → present cfg (setSlot s2 vac.cell (some k)) k) := by
  obtain ⟨pre, cE, post, hdec, hpreocc, hempty, htail, hqac⟩ :=
    pushLoop_inr s qi _ _ _ _ hpush
  subst htail
  have hmemE : cE ∈ childCells cfg nq.cell.1 (s nq.cell.1 nq.cell.2) := by
    rw [hdec]
    exact List.mem_append.mpr (Or.inr (List.mem_cons_self _ _))
  have hqi_len : qi < queue.length := getElem?_lt _ hqn
  have hqAC_len : queue.length ≤ qAC.length := by
    rw [hqac, List.length_append]
    omega
  obtain ⟨chainQ, idxs, hpcQ, hca⟩ :=
    parentChain_chainAt h qi nq hqn (qAC.length - 1) (by omega)
  have hpcA : parentChain qAC nq (qAC.length - 1) = some chainQ := by
    have h2 := parentChain_mono queue (pre.map fun c2 => ⟨some qi, c2⟩)
      (qAC.length - 1) nq chainQ hpcQ
    rw [← hqac] at h2
    exact h2
  obtain ⟨m, hm⟩ : ∃ m, qAC.length = m + 1 := ⟨qAC.length - 1, by omega⟩
  have hqAC_qi : qAC[qi]? = some nq := by
    rw [hqac, List.getElem?_append_left hqi_len]
    exact hqn
  have hfull : parentChain qAC ⟨some qi, cE⟩ qAC.length
      = some (⟨some qi, cE⟩ :: chainQ) := by
    rw [hm, parentChain]
    show (match qAC[qi]? with
      | none => none
      | some n2 => Option.map ((⟨some qi, cE⟩ : Node) :: ·)
          (parentChain qAC n2 m)) = some (⟨some qi, cE⟩ :: chainQ)
    rw [hqAC_qi]
    show Option.map ((⟨some qi, cE⟩ : Node) :: ·) (parentChain qAC nq m)
      = some (⟨some qi, cE⟩ :: chainQ)
    have hmm : m = qAC.length - 1 := by omega
    rw [hmm, hpcA]
    rfl
  have hneQ : chainQ ≠ [] := by
    intro hcon
    have h9 := chainAt_length hca
    rw [hcon] at h9
    simp only [List.length_nil, List.length_cons] at h9
    omega
  obtain ⟨hnodupQ, hnotmem⟩ := chain_cells_nodup h hca nq hqn cE hmemE hempty
  have hndF : (((⟨some qi, cE⟩ : Node) :: chainQ).map (·.cell)).Nodup := by
    rw [List.map_cons]
    exact List.nodup_cons.mpr ⟨hnotmem, hnodupQ⟩
  have hlen2 : 2 ≤ ((⟨some qi, cE⟩ : Node) :: chainQ).length := by
    have h9 := List.length_pos.mpr hneQ
    simp only [List.length_cons]
    omega
  obtain ⟨vacE, s2E, hEE, hlastE, hvacE, hshiftE, hframeE⟩ :=
    evictChain_effect cfg s qAC ⟨some qi, cE⟩ (⟨some qi, cE⟩ :: chainQ)
      hfull hlen2 hndF hempty
  rw [hE] at hEE
  have hEE2 := Option.some.inj hEE
  have hv1 : vacE = vac := (congrArg Prod.fst hEE2).symm
  have hv2 : s2E = s2 := (congrArg Prod.snd hEE2).symm
  rw [hv1] at hlastE
  rw [hv1, hv2] at hvacE
  rw [hv2] at hshiftE hframeE
  have hprobeF : ∀ n ∈ (⟨some qi, cE⟩ : Node) :: chainQ,
      ProbeCell cfg n.cell := by
    intro n hn
    rcases List.mem_cons.mp hn with rfl | hm2
    · exact probeCell_of_child cfg _ _ cE hmemE
    · exact goodQ_cell_probe h n (chainAt_mem hca n hm2)
  have hlinkF : ∀ (pos : Nat)
      (h2 : pos + 1 < ((⟨some qi, cE⟩ : Node) :: chainQ).length),
      (((⟨some qi, cE⟩ : Node) :: chainQ).get ⟨pos, by omega⟩).cell ∈
        childCells cfg
          (((⟨some qi, cE⟩ : Node) :: chainQ).get ⟨pos + 1, h2⟩).cell.1
          (s (((⟨some qi, cE⟩ : Node) :: chainQ).get ⟨pos + 1, h2⟩).cell.1
             (((⟨some qi, cE⟩ : Node) :: chainQ).get ⟨pos + 1, h2⟩).cell.2) := by
    intro pos h2
    match pos with
    | 0 =>
      obtain ⟨nh, ih0, restN, restI, hch0, hidx0, hget0⟩ :=
        chainAt_head _ _ _ hca
      injection hidx0 with hii hrr
      rw [← hii] at hget0
      have hnh : nh = nq := by
        rw [hqn] at hget0
        exact (Option.some.inj hget0).symm
      subst hch0
      show cE ∈ childCells cfg nh.cell.1 (s nh.cell.1 nh.cell.2)
      rw [hnh]
      exact hmemE
    | pos + 1 =>
      have h3 : pos + 1 < chainQ.length := by
        simp only [List.length_cons] at h2
        omega
      exact chain_linked h hca pos h3
  have hneF : ((⟨some qi, cE⟩ : Node) :: chainQ) ≠ [] := by simp
  have hlastF : ((⟨some qi, cE⟩ : Node) :: chainQ).getLast hneF = vac := by
    rw [List.getLast?_eq_getLast _ hneF] at hlastE
    exact Option.some.inj hlastE
  have hvgF : ((⟨some qi, cE⟩ : Node) :: chainQ).get
      ⟨((⟨some qi, cE⟩ : Node) :: chainQ).length - 1, by omega⟩ = vac := by
    rw [← hlastF]
    exact (List.getLast_eq_get _ _).symm
  have hvacscanF : vac.cell ∈ scanCells cfg k := by
    have h9 := chain_root_seed h hca hneQ
    have h10 : chainQ.getLast hneQ = vac := by
      rw [← hlastF]
      exact (List.getLast_cons hneQ).symm
    rw [h10] at h9
    exact h9
  exact chain_insert_preserves cfg s s2 k ((⟨some qi, cE⟩ : Node) :: chainQ)
    vac hres huniq hscanK hprobeF hndF hlinkF (by simp) hvgF hvacscanF hempty
    hshiftE hframeE

theorem pushLoop_inl (s : Tbl K) (qi : Nat) :
    ∀ (cs : List (Nat × Nat)) (queue queue2 : List Node),
      pushLoop s qi queue cs = Sum.inl queue2 →
      queue2 = queue ++ cs.map (fun c2 => ⟨some qi, c2⟩) ∧
        ∀ c2 ∈ cs, s c2.1 c2.2 ≠ none := by
  intro cs
  induction cs with
  | nil =>
    intro queue queue2 h
    rw [pushLoop] at h
    cases h
    exact ⟨by simp, by simp⟩
  | cons c0 rest ih =>
    intro queue queue2 h
    rw [pushLoop] at h
    split at h
    · cases h
    · rename_i hc0
      obtain ⟨h1, h2⟩ := ih _ _ h
      constructor
      · rw [h1]
        simp
      · intro c2 hc2
        rcases List.mem_cons.mp hc2 with rfl | hm
        · exact hc0
        · exact h2 c2 hm

/-- The BFS loop preserves residence, uniqueness, and presence, and places
`k`, whenever it completes (returns `some`). -/
theorem bfsLoop_spec {cfg : Cfg K} {s : Tbl K} {k : K}
    (hres : Resident cfg s) (huniq : UniqueKeys cfg s)
    (hscanK : ∀ c ∈ scanCells cfg k, s c.1 c.2 ≠ some k) :
    ∀ (fuel qi : Nat) (queue : List Node), GoodQ cfg s k qi queue →
      ∀ (it : Nat × Nat) (b : Bool) (s2 : Tbl K),
        bfsLoop cfg s k fuel qi queue = some (it, b, s2) →
        Resident cfg s2 ∧ UniqueKeys cfg s2 ∧
          (∀ k2, present cfg s k2 → present cfg s2 k2) ∧
          (0 < cfg.B → present cfg s2 k) := by
  intro fuel
  induction fuel with
  | zero =>
    intro qi queue hgq it b s2 hb
    rw [bfsLoop] at hb
    cases hb
  | succ fuel ih =>
    intro qi queue hgq it b s2 hb
    rw [bfsLoop] at hb
    rcases hq : queue[qi]? with _ | c
    · rw [hq] at hb
      cases hb
    · rw [hq] at hb
      replace hb : (match pushLoop s qi queue
          (childCells cfg c.cell.1 (s c.cell.1 c.cell.2)) with
        | Sum.inl queue2 => bfsLoop cfg s k fuel (qi + 1) queue2
        | Sum.inr (tail, queueAtCall) =>
          match evictChain cfg s queueAtCall tail with
          | none => none
          | some (vac, s2') =>
            some (vac.cell, true, setSlot s2' vac.cell (some k)))
          = some (it, b, s2) := hb
      rcases hp : pushLoop s qi queue
          (childCells cfg c.cell.1 (s c.cell.1 c.cell.2)) with queue2 | pr
      · rw [hp] at hb
        replace hb : bfsLoop cfg s k fuel (qi + 1) queue2 = some (it, b, s2) :=
          hb
        obtain ⟨hq2eq, hocc2⟩ := pushLoop_inl s qi _ queue queue2 hp
        subst hq2eq
        exact ih (qi + 1) _ (GoodQ.step hgq hq hocc2) it b s2 hb
      · obtain ⟨tail, qAC⟩ := pr
        rw [hp] at hb
        replace hb : (match evictChain cfg s qAC tail with
          | none => none
          | some (vac, s2') =>
            some (vac.cell, true, setSlot s2' vac.cell (some k)))
            = some (it, b, s2) := hb
        rcases hev : evictChain cfg s qAC tail with _ | pv
        · rw [hev] at hb
          cases hb
        · obtain ⟨vac, s2'⟩ := pv
          rw [hev] at hb
          replace hb : some (vac.cell, true, setSlot s2' vac.cell (some k))
              = some (it, b, s2) := hb
          have hb2 := Option.some.inj hb
          have hs2 : setSlot s2' vac.cell (some k) = s2 :=
            congrArg (fun x => x.2.2) hb2
          obtain ⟨R, U, P, Pk⟩ :=
            evict_case_spec hres huniq hscanK hgq hq hp hev
          rw [hs2] at R U P Pk
          exact ⟨R, U, P, Pk⟩

/-- A completed `insert` call preserves residence, uniqueness, and the
presence of every previously present key, and (when `B > 0`) leaves the
inserted key present. -/
theorem insert_spec {cfg : Cfg K} {s : Tbl K} {k : K}
    (hres : Resident cfg s) (huniq : UniqueKeys cfg s)
    {it : Nat × Nat} {b : Bool} {s2 : Tbl K}
    (hins : insert cfg s k = some (it, b, s2)) :
    Resident cfg s2 ∧ UniqueKeys cfg s2 ∧
      (∀ k2, present cfg s k2 → present cfg s2 k2) ∧
      (0 < cfg.B → present cfg s2 k) := by
  rw [insert] at hins
  rcases hsc : scanPhase1 s k none (scanCells cfg k) with cdup | e
  · rw [hsc] at hins
    replace hins : some (cdup, false, s) = some (it, b, s2) := hins
    have h2 := Option.some.inj hins
    have hs2 : s = s2 := congrArg (fun x => x.2.2) h2
    subst hs2
    obtain ⟨hmem, hsk⟩ := scanPhase1_inl s k _ none cdup hsc
    refine ⟨hres, huniq, fun k2 h => h, fun hB => ?_⟩
    obtain ⟨t2, ht2, d, hd, hform⟩ := (mem_scanCells cfg k cdup).mp hmem
    refine ⟨cdup.1, cdup.2, ?_, ?_, hsk⟩
    · rw [hform]
      exact ht2
    · rw [hform]
      exact probe_lt cfg _ hB d
  · rcases e with _ | cemp
    · rw [hsc] at hins
      replace hins : bfsLoop cfg s k maxBfsRounds 0 (seeds cfg k)
          = some (it, b, s2) := hins
      have hocc := scanPhase1_inr_none s k _ hsc
      have hnodup := scanPhase1_no_dup s k _ none none hsc
      exact bfsLoop_spec hres huniq hnodup maxBfsRounds 0 (seeds cfg k)
        (GoodQ.base hocc) it b s2 hins
    · rw [hsc] at hins
      replace hins : some (cemp, true, setSlot s cemp (some k))
          = some (it, b, s2) := hins
      have h2 := Option.some.inj hins
      have hs2 : setSlot s cemp (some k) = s2 := congrArg (fun x => x.2.2) h2
      obtain ⟨hmem, hempty⟩ := scanPhase1_empty_found s k _ cemp hsc
      have hnodup := scanPhase1_no_dup s k _ none (some cemp) hsc
      have hout := chain_insert_preserves cfg s s k [⟨none, cemp⟩]
        ⟨none, cemp⟩ hres huniq hnodup
        (by
          intro n hn
          rcases List.mem_cons.mp hn with rfl | hm
          · exact probeCell_of_scan cfg k cemp hmem
          · cases hm)
        (by simp)
        (by
          intro pos hp2
          exact absurd hp2
            (by simp only [List.length_cons, List.length_nil]; omega))
        (by simp)
        rfl
        hmem
        hempty
        (by
          intro i hp2
          exact absurd hp2
            (by simp only [List.length_cons, List.length_nil]; omega))
        (fun c hc => rfl)
      rw [← hs2]
      exact hout

theorem erase_occupied {cfg : Cfg K} (s : Tbl K) (it : Nat × Nat)
    (t j : Nat) (κ : K) (h : erase cfg s it t j = some κ) : s t j = some κ := by
  by_cases hne : ((t, j) : Nat × Nat) = it
  · exfalso
    have ht1 : t = it.1 := congrArg Prod.fst hne
    have hj1 : j = it.2 := congrArg Prod.snd hne
    have h2 : erase cfg s it t j = none := by
      show setSlot s it none t j = none
      rw [ht1, hj1]
      exact setSlot_same s it none
    rw [h2] at h
    cases h
  · have h3 : erase cfg s it t j = s t j := setSlot_ne s it none (t, j) hne
    rw [← h3]
    exact h

theorem erase_preserves {cfg : Cfg K} {s : Tbl K}
    (hres : Resident cfg s) (huniq : UniqueKeys cfg s) (it : Nat × Nat) :
    Resident cfg (erase cfg s it) ∧ UniqueKeys cfg (erase cfg s it) := by
  constructor
  · intro t j κ ht hj hsome
    exact hres t j κ ht hj (erase_occupied s it t j κ hsome)
  · intro t j t' j' κ ht hj ht' hj' h1 h2
    exact huniq t j t' j' κ ht hj ht' hj'
      (erase_occupied s it t j κ h1) (erase_occupied s it t' j' κ h2)

/-- Every reachable table state satisfies the residence and uniqueness
invariants. -/
theorem inv_of_reachable {cfg : Cfg K} {s : Tbl K} (h : Reachable cfg s) :
    Resident cfg s ∧ UniqueKeys cfg s := by
  induction h with
  | init =>
    constructor
    · intro t j κ ht hj hsome
      cases hsome
    · intro t j t' j' κ ht hj ht' hj' h1 h2
      cases h1
  | insert_step hre hins ih =>
    exact ⟨(insert_spec ih.1 ih.2 hins).1, (insert_spec ih.1 ih.2 hins).2.1⟩
  | erase_step it hre ih =>
    exact erase_preserves ih.1 ih.2 it

/-- A completed run of inserts preserves the invariants and leaves every
inserted key present (when `B > 0`). -/
theorem insertList_spec {cfg : Cfg K} :
    ∀ (ks : List K) (s sN : Tbl K), Resident cfg s → UniqueKeys cfg s →
      insertList cfg s ks = some sN →
      Resident cfg sN ∧ UniqueKeys cfg sN ∧
        (∀ k2, present cfg s k2 → present cfg sN k2) ∧
        (0 < cfg.B → ∀ k ∈ ks, present cfg sN k) := by
  intro ks
  induction ks with
  | nil =>
    intro s sN hres huniq hrun
    rw [insertList] at hrun
    have hs : s = sN := Option.some.inj hrun
    subst hs
    exact ⟨hres, huniq, fun k2 h => h,
      fun _ k hk => absurd hk (List.not_mem_nil k)⟩
  | cons k ks ih =>
    intro s sN hres huniq hrun
    rw [insertList] at hrun
    rcases hins : insert cfg s k with _ | tr
    · rw [hins] at hrun
      cases hrun
    · obtain ⟨it, b, s2⟩ := tr
      rw [hins] at hrun
      replace hrun : insertList cfg s2 ks = some sN := hrun
      obtain ⟨R2, U2, P2, Pk2⟩ := insert_spec hres huniq hins
      obtain ⟨RN, UN, PN, PkN⟩ := ih s2 sN R2 U2 hrun
      refine ⟨RN, UN, fun k2 h => PN k2 (P2 k2 h), ?_⟩
      intro hB k2 hk2
      rcases List.mem_cons.mp hk2 with rfl | hm
      · exact PN k2 (Pk2 hB)
      · exact PkN hB k2 hm

/-- C4 (counterexample): the constructor's bucket count for capacity 2 with
`NumHashes = 2` is `buckets_per_table_ = 1`, and `B × NumHashes = 2` is
strictly below `capacity / LoadFactor = 2 / 0.9 = 20/9`, refuting the
claimed bound `B × NumHashes ≥ capacity / LoadFactor`. -/
theorem capacity_formula_counterexample :
    computeBuckets 2 2 = 1 ∧
      ¬ ((2 : ℚ) / (9 / 10) ≤ ((computeBuckets 2 2 * 2 : Nat) : ℚ)) := by
  have h1 : computeBuckets 2 2 = 1 := by
    rw [computeBuckets, ratFloor_eq_intFloor]
    norm_num
  refine ⟨h1, ?_⟩
  intro hcon
  rw [h1] at hcon
  norm_num at hcon

/-- C4 (amended): the computed bucket count satisfies
`B × NumHashes > capacity / LoadFactor - 1` (hence in particular
`B × NumHashes ≥ capacity`), but not the claimed
`B × NumHashes ≥ capacity / LoadFactor`. -/
theorem capacity_formula_amended (H cap : Nat) (hH : 1 ≤ H) :
    (cap : ℚ) / (9 / 10) - 1 < ((computeBuckets H cap * H : Nat) : ℚ) ∧
      cap ≤ computeBuckets H cap * H := by
  have hH1 : (1 : ℚ) ≤ (H : ℚ) := Nat.one_le_cast.mpr hH
  have hHp : (0 : ℚ) < (H : ℚ) := by linarith
  have hlt := computeBuckets_cast H cap hH
  rw [div_lt_iff₀ hHp] at hlt
  have hmain : (cap : ℚ) / (9 / 10) - 1 < ((computeBuckets H cap * H : Nat) : ℚ) := by
    push_cast
    linarith
  refine ⟨hmain, ?_⟩
  have hcapx : (cap : ℚ) ≤ (cap : ℚ) / (9 / 10) := by
    rw [le_div_iff₀ (by norm_num)]
    have : (0 : ℚ) ≤ (cap : ℚ) := Nat.cast_nonneg cap
    linarith
  by_contra hcon
  push_neg at hcon
  have : ((computeBuckets H cap * H : Nat) : ℚ) ≤ (cap : ℚ) - 1 := by
    have h2 : (computeBuckets H cap * H : Nat) + 1 ≤ cap := hcon
    have h3 : (((computeBuckets H cap * H : Nat) : ℚ)) + 1 ≤ (cap : ℚ) := by
      exact_mod_cast h2
    linarith
  linarith

/-- C4 witness: the amended bound instantiated at `NumHashes = 2`,
capacity 10 (`buckets_per_table_ = 6`). -/
theorem capacity_formula_amended_witness :
    (10 : ℚ) / (9 / 10) - 1 < ((computeBuckets 2 10 * 2 : Nat) : ℚ) ∧
      10 ≤ computeBuckets 2 10 * 2 :=
  capacity_formula_amended 2 10 (by decide)

/-- C5: `insert` is a total function of the model (it always terminates); it
either aborts (`none`: the table-full / internal-assertion `abort()` paths),
returns a duplicate `(it, false)`, or places the key `(it, true)`; and the
BFS dequeues and expands at most `MaxBfsRounds = 100` queue nodes. -/
theorem insert_bounded_work (cfg : Cfg K) (s : Tbl K) (k : K) :
    insertExpansions cfg s k ≤ maxBfsRounds ∧
      (insert cfg s k = none ∨
        (∃ it s2, insert cfg s k = some (it, false, s2)) ∨
        (∃ it s2, insert cfg s k = some (it, true, s2))) := by
  refine ⟨insertExpansions_le cfg s k, ?_⟩
  rcases hres : insert cfg s k with _ | ⟨it, b, s2⟩
  · exact Or.inl rfl
  · rcases b with _ | _
    · exact Or.inr (Or.inl ⟨it, s2, rfl⟩)
    · exact Or.inr (Or.inr ⟨it, s2, rfl⟩)

/-- C9: constructing the table with capacity 0 (and `NumHashes = 2`) yields
`buckets_per_table_ = 0`, and then the first probe index of every bucket
scan in `find`/`insert` is `hash % 0` — a division by zero (undefined
behavior in the C++ source; `Nat.mod 0` in the model).  The constructor
imposes no positive lower bound on `buckets_per_table_`. -/
theorem zero_capacity_zero_buckets (cfg : Cfg Nat)
    (hB : cfg.B = computeBuckets 2 0) :
    cfg.B = 0 ∧ ∀ h : Nat, probe cfg h 0 = h % 0 := by
  have h0 : computeBuckets 2 0 = 0 := by
    rw [computeBuckets, ratFloor_eq_intFloor]
    norm_num
  rw [h0] at hB
  exact ⟨hB, fun h => by rw [probe, hB]⟩

/-- C9 witness: the zero-capacity construction at the concrete config. -/
theorem zero_capacity_zero_buckets_witness :
    (⟨2, 2, computeBuckets 2 0, fun i k => k + i, fun i => i⟩ : Cfg Nat).B = 0 ∧
      ∀ h : Nat,
        probe (⟨2, 2, computeBuckets 2 0, fun i k => k + i, fun i => i⟩ : Cfg Nat)
          h 0 = h % 0 :=
  zero_capacity_zero_buckets _ rfl

/-- C10: `erase` never validates its iterator: applied to the end iterator
`(NumHashes, 0)` it clears exactly the slot at table index `NumHashes` —
one past the last valid table, as witnessed by `¬ (NumHashes < NumHashes)`
(an out-of-range array access in the C++ source). -/
theorem erase_end_iterator (cfg : Cfg K) (s : Tbl K) (t j : Nat) :
    erase cfg s (endIt cfg) t j
        = (if t = cfg.numHashes ∧ j = 0 then none else s t j) ∧
      ¬ (endIt cfg).1 < cfg.numHashes := by
  constructor
  · rfl
  · rw [endIt]
    omega

/-- C6 (amended, restricting to chains whose cells are pairwise distinct —
the hypotheses as stated admit chains with a repeated coordinate, where the
shift property fails, see the counterexample): for every `EvictChain` call
whose reconstructed chain `c_0 … c_{L-1}` has `L ≥ 2`, pairwise-distinct
cells, an empty slot at `c_0` and occupied slots elsewhere, the call
succeeds, returns the root `c_{L-1}` as the vacated coordinate with
`Empty(slot(c_{L-1}))`, every other chain slot holds the value that
previously lived one step toward the root (so exactly the one formerly
empty slot is empty, now at the root), and no slot outside the chain
changes — no logical entry is duplicated or lost. -/
theorem eviction_effect_amended (cfg : Cfg K) (s : Tbl K) (queue : List Node)
    (tail : Node) (chain : List Node)
    (hchain : parentChain queue tail queue.length = some chain)
    (hlen : 2 ≤ chain.length)
    (hnd : (chain.map (·.cell)).Nodup)
    (hhead : s tail.cell.1 tail.cell.2 = none)
    (hocc : ∀ (i : Nat) (h2 : i < chain.length), 1 ≤ i →
      s (chain.get ⟨i, h2⟩).cell.1 (chain.get ⟨i, h2⟩).cell.2 ≠ none) :
    ∃ vac s2, evictChain cfg s queue tail = some (vac, s2) ∧
      chain.getLast? = some vac ∧
      s2 vac.cell.1 vac.cell.2 = none ∧
      (∀ (i : Nat) (h2 : i + 1 < chain.length),
        s2 (chain.get ⟨i, by omega⟩).cell.1 (chain.get ⟨i, by omega⟩).cell.2
          = s (chain.get ⟨i + 1, h2⟩).cell.1 (chain.get ⟨i + 1, h2⟩).cell.2) ∧
      (∀ (i : Nat) (h2 : i + 1 < chain.length),
        s2 (chain.get ⟨i, by omega⟩).cell.1
          (chain.get ⟨i, by omega⟩).cell.2 ≠ none) ∧
      (∀ c : Nat × Nat, c ∉ chain.map (·.cell) → s2 c.1 c.2 = s c.1 c.2) := by
  obtain ⟨vac, s2, hE, hLast, hRoot, hShift, hFrame⟩ :=
    evictChain_effect cfg s queue tail chain hchain hlen hnd hhead
  refine ⟨vac, s2, hE, hLast, hRoot, hShift, ?_, hFrame⟩
  intro i h2
  rw [hShift i h2]
  exact hocc (i + 1) (by omega) (by omega)

/-- C6 witness: a two-node chain `(0,0) ← (1,0)` on the state holding `5`
at `(1,0)`: the call succeeds and the vacated root slot is empty. -/
theorem eviction_effect_amended_witness :
    exSW exTailW.cell.1 exTailW.cell.2 = none ∧
      (∃ vac s2, evictChain cfgX exSW exQW exTailW = some (vac, s2) ∧
        s2 vac.cell.1 vac.cell.2 = none) := by
  have h := eviction_effect_amended cfgX exSW exQW exTailW
    [exTailW, ⟨none, (1, 0)⟩] rfl (by decide) (by decide) (by decide)
    (by
      intro i h2 h1
      have h2b : i < 2 := by simpa using h2
      have hi : i = 1 := by omega
      subst hi
      show exSW 1 0 ≠ none
      decide)
  obtain ⟨vac, s2, hE, _, hRoot, _, _, _⟩ := h
  exact ⟨by decide, vac, s2, hE, hRoot⟩

/-- C6 (counterexample): the queue permits the parent-linked chain
`c_0 = (0,0) ← c_1 = (1,0) ← c_2 = (0,1) ← c_3 = (1,0)` in which the cell
`(1,0)` repeats (`c_1 = c_3`), with `c_0` empty and every other chain slot
occupied (`L = 4 ≥ 2`).  `EvictChain` succeeds — it returns the root
`⟨none, (1,0)⟩` and its emptiness assertion passes — but afterwards the
intermediate slot `c_1 = (1,0)` is empty (`none`) instead of holding the
previous content of `c_2 = (0,1)`, which was `some 2`: the claimed
"contents shifted one step" property is false as stated. -/
theorem eviction_effect_counterexample :
    parentChain exQueue6 exTail6 exQueue6.length
        = some [exTail6, ⟨some 1, (1, 0)⟩, ⟨some 0, (0, 1)⟩, ⟨none, (1, 0)⟩] ∧
      exS6 0 0 = none ∧ exS6 1 0 = some 1 ∧ exS6 0 1 = some 2 ∧
      exResult6.map (fun r => (r.1, r.2 1 0)) = some (⟨none, (1, 0)⟩, none) :=
  ⟨rfl, rfl, rfl, rfl, rfl⟩

/-- C8: on a table satisfying the residence and uniqueness invariants in
which slot `(t, j)` currently stores `k` (so a previous `insert(k)` placed
it and it was not erased since), `insert(k)` returns the pair
`((t, j), false)` — the iterator of the slot currently holding `k` and the
not-inserted flag — with the table state completely unchanged (hence no
slot and no slot count is altered); the duplicate is not an error. -/
theorem insert_idempotent (cfg : Cfg K) (s : Tbl K) (k : K) (t j : Nat)
    (hres : Resident cfg s) (huniq : UniqueKeys cfg s)
    (ht : t < cfg.numHashes) (hj : j < cfg.B) (hk : s t j = some k) :
    insert cfg s k = some ((t, j), false, s) := by
  have hB : 0 < cfg.B := by omega
  obtain ⟨d, hd, hjp⟩ := hres t j k ht hj hk
  have hmem : (t, j) ∈ scanCells cfg k := by
    rw [mem_scanCells]
    exact ⟨t, ht, d, hd, by rw [hjp]⟩
  obtain ⟨c, hph, hck⟩ :=
    scanPhase1_finds_dup s k (scanCells cfg k) ⟨(t, j), hmem, hk⟩ none
  obtain ⟨hcm, -⟩ := scanPhase1_inl s k _ none c hph
  obtain ⟨t2, ht2, d2, hd2, hc2⟩ := (mem_scanCells cfg k c).mp hcm
  have hc1r : c.1 < cfg.numHashes := by rw [hc2]; exact ht2
  have hc2r : c.2 < cfg.B := by rw [hc2]; exact probe_lt cfg _ hB d2
  have heq := huniq c.1 c.2 t j k hc1r hc2r ht hj hck hk
  have hceq : c = (t, j) := Prod.ext heq.1 heq.2
  show (match scanPhase1 s k none (scanCells cfg k) with
    | Sum.inl c => some (c, false, s)
    | Sum.inr (some c) => some (c, true, setSlot s c (some k))
    | Sum.inr none => bfsLoop cfg s k maxBfsRounds 0 (seeds cfg k))
    = some ((t, j), false, s)
  rw [hph, hceq]

/-- C8 witness: under `cfg0`, with key `3` resident at `(0, 3)`,
re-inserting `3` returns `((0,3), false)` and the unchanged state. -/
theorem insert_idempotent_witness :
    wS8 0 3 = some 3 ∧ insert cfg0 wS8 3 = some ((0, 3), false, wS8) := by
  refine ⟨rfl, ?_⟩
  apply insert_idempotent cfg0 wS8 3 0 3
  · intro t j k ht hj hk
    rw [wS8] at hk
    split at hk
    · rename_i hc
      cases hk
      obtain ⟨rfl, rfl⟩ := hc
      exact ⟨0, by decide, by decide⟩
    · cases hk
  · intro t j t' j' k ht hj ht' hj' h1 h2
    rw [wS8] at h1 h2
    split at h1
    · split at h2
      · rename_i hc1 hc2
        exact ⟨hc1.1.trans hc2.1.symm, hc1.2.trans hc2.2.symm⟩
      · cases h2
    · cases h1
  · decide
  · decide
  · rfl

/-- C7 (counterexample): on the tail-first chain
`c_0 = (0,0) (empty), c_1 = (1,0), c_2 = (0,1)` with contents `1` at `(1,0)`
and `2` at `(0,1)`, the spec's descending ordering
(`swap(c_{i-1}, c_i)` for `i = L-1 … 1`) leaves `some 2` in slot `(0,0)`,
while the ascending ordering `EvictChain` implements leaves `some 1` there:
the two orderings do not produce the same final contents. -/
theorem swap_ordering_counterexample :
    descSwaps exS7 exChain7 0 0 = some 2 ∧
      doSwaps exS7 exChain7 0 0 = some 1 ∧
      descSwaps exS7 exChain7 ≠ doSwaps exS7 exChain7 := by
  refine ⟨rfl, rfl, fun hEq => ?_⟩
  have h1 : descSwaps exS7 exChain7 0 0 = doSwaps exS7 exChain7 0 0 := by
    rw [hEq]
  have h2 : (some 2 : Option Nat) = some 1 := by
    calc (some 2 : Option Nat) = descSwaps exS7 exChain7 0 0 := rfl
      _ = doSwaps exS7 exChain7 0 0 := h1
      _ = some 1 := rfl
  cases h2

/-- C7 (amended): the descending ordering of the spec coincides with the
ascending ordering of `EvictChain` applied to the reversed (root-first)
chain; on the same chain the two orderings agree whenever the chain has at
most two cells (a single swap). -/
theorem swap_ordering_amended (s : Tbl K) (l : List (Nat × Nat)) :
    descSwaps s l = doSwaps s l.reverse ∧
      (l.length ≤ 2 → descSwaps s l = doSwaps s l) := by
  refine ⟨descSwaps_eq_doSwaps_reverse s l, fun hlen => ?_⟩
  match l with
  | [] => rfl
  | [_] => rfl
  | [_, _] => rfl
  | a :: b :: c :: rest => simp at hlen

/-- C1: find-after-insert.  On a fresh table whose per-table bucket count
is the constructor's `computeBuckets NumHashes capacity`, after a sequence
of inserts `[k_1, …, k_n]` with `n ≤ capacity` completes, every `find k_i`
returns a non-end iterator whose slot stores `k_i` (the model's `find`
scans, per hash index, the wrap-around bucket of `BucketWidth` slots
rooted at `hash i k % B` and returns the first match, else the end
iterator). -/
theorem find_after_insert (cfg : Cfg K) (cap : Nat) (ks : List K) (sN : Tbl K)
    (hH : 1 ≤ cfg.numHashes)
    (hB : cfg.B = computeBuckets cfg.numHashes cap)
    (hcap : ks.length ≤ cap)
    (hrun : insertList cfg emptyTbl ks = some sN) :
    ∀ k ∈ ks, find cfg sN k ≠ endIt cfg ∧
      sN (find cfg sN k).1 (find cfg sN k).2 = some k := by
  intro k hk
  have hres0 : Resident cfg emptyTbl := by
    intro t j κ ht hj hsome
    cases hsome
  have huniq0 : UniqueKeys cfg emptyTbl := by
    intro t j t' j' κ ht hj ht' hj' h1 h2
    cases h1
  obtain ⟨RN, UN, PN, PkN⟩ := insertList_spec ks emptyTbl sN hres0 huniq0 hrun
  have hcap1 : 1 ≤ cap := by
    have h9 := List.length_pos.mpr (List.ne_nil_of_mem hk)
    omega
  have hBpos : 0 < cfg.B := by
    rw [hB]
    exact computeBuckets_pos cfg.numHashes cap hH hcap1
  exact find_spec cfg sN k RN (PkN hBpos k hk)

/-- C1 witness: inserting `[3, 5]` into the fresh `cfg0` table (capacity
10, `B = computeBuckets 2 10 = 6`) completes, and `find` then locates both
keys at non-end iterators whose slots store them. -/
theorem find_after_insert_witness :
    (cfg0.B = computeBuckets cfg0.numHashes 10 ∧
      insertList cfg0 emptyTbl [3, 5] = some wS1) ∧
    ∀ k ∈ ([3, 5] : List Nat), find cfg0 wS1 k ≠ endIt cfg0 ∧
      wS1 (find cfg0 wS1 k).1 (find cfg0 wS1 k).2 = some k := by
  have hB : cfg0.B = computeBuckets cfg0.numHashes 10 := by
    show (6 : Nat) = computeBuckets 2 10
    rw [computeBuckets, ratFloor_eq_intFloor]
    norm_num
    rfl
  refine ⟨⟨hB, rfl⟩, ?_⟩
  exact find_after_insert cfg0 10 [3, 5] wS1 (by decide) hB (by decide) rfl

/-- C2: residence invariant.  After any finite sequence of completed
`insert` and `erase` operations on a fresh table, every occupied in-range
slot `(t, j)` stores a key `k` with `j` inside the wrap-around bucket of
`BucketWidth` slots rooted at `hash t k % B`, i.e.
`j = (hash t k % B + d) % B` for some `d < BucketWidth` — covering slots
written by the phase-1 fast path, slots moved by eviction swaps, and the
slot initialized after eviction. -/
theorem residence_invariant (cfg : Cfg K) (s : Tbl K) (h : Reachable cfg s) :
    ∀ t j k, t < cfg.numHashes → j < cfg.B → s t j = some k →
      ∃ d < cfg.bucketWidth, j = (cfg.hash t k % cfg.B + d) % cfg.B := by
  intro t j k ht hj hsome
  obtain ⟨d, hd, hjp⟩ := (inv_of_reachable h).1 t j k ht hj hsome
  have hB : 0 < cfg.B := by omega
  exact ⟨d, hd, by rw [hjp, probe_eq_mod cfg _ hB d]⟩

/-- C2 witness: the state after inserting `3` into the fresh `cfg0` table
stores `3` at `(0, 3)`, and the invariant yields an in-bucket offset for
it. -/
theorem residence_invariant_witness :
    wS2 0 3 = some 3 ∧
      ∃ d < cfg0.bucketWidth,
        (3 : Nat) = (cfg0.hash 0 3 % cfg0.B + d) % cfg0.B :=
  ⟨rfl, residence_invariant cfg0 wS2
    (Reachable.insert_step Reachable.init
      (show insert cfg0 emptyTbl 3 = some ((0, 3), true, wS2) from rfl))
    0 3 3 (by decide) (by decide) rfl⟩

/-- C3: uniqueness invariant.  After any finite sequence of completed
`insert` and `erase` operations on a fresh table, each key occupies at
most one in-range slot: any two occupied slots holding the same key
coincide. -/
theorem uniqueness_invariant (cfg : Cfg K) (s : Tbl K) (h : Reachable cfg s) :
    ∀ t j t' j' k, t < cfg.numHashes → j < cfg.B → t' < cfg.numHashes →
      j' < cfg.B → s t j = some k → s t' j' = some k → t = t' ∧ j = j' :=
  (inv_of_reachable h).2

/-- C3 witness: in the state after inserting `3` into the fresh `cfg0`
table, any two in-range slots holding `3` coincide — exercised at `(0, 3)`
and `(0, 3)`. -/
theorem uniqueness_invariant_witness :
    wS2 0 3 = some 3 ∧ ((0 : Nat) = 0 ∧ (3 : Nat) = 3) :=
  ⟨rfl, uniqueness_invariant cfg0 wS2
    (Reachable.insert_step Reachable.init
      (show insert cfg0 emptyTbl 3 = some ((0, 3), true, wS2) from rfl))
    0 3 0 3 3 (by decide) (by decide) (by decide) (by decide) rfl rfl⟩

end LpCockoo
